import Mathlib

/-!
Verification development for the competitive-viability matching engine, team
synthesizer and search-filter mini-language of `backend/app.py`.

Conventions of the shallow embedding:

* Python strings are modelled as `List Char` (called `Str` below); `.lower()`,
  `.upper()` and `.strip()` are modelled on the ASCII fragment (the code only
  ever compares ASCII query/identifier text).
* Python dynamic values that the code inspects with `isinstance`/truthiness
  are modelled by the small inductive `PyVal`.
* Python floats are modelled exactly: every quantity the code computes is of
  the form `q * sqrt r` with `q r : ℚ`, so the integer truncations
  (`int(...)`) that the code stores are computed exactly over `ℚ` using
  `Nat.sqrt` (see `floorSqrtQ`, `truncMulSqrt`).  The CP-multiplier table is
  carried through the development as the square of the source table's values
  (see `get_cpm_sq0`), which keeps every intermediate value rational.
* Raising an exception is modelled by `Except.error`.
* The process-wide memo caches (`PVP_RANKINGS_CACHE`, `PVP_PREFIX_BEST_CACHE`,
  `PVP_TOP10_IV_CACHE`) are pure memoization tables; they are modelled away,
  every cached read is replaced by the recomputation it caches.
-/

/-- Python strings, as character lists. -/
abbrev Str : Type := List Char

/-- Literal helper: the characters of a Lean string literal. -/
def sc (s : String) : Str := s.data

/-- The apostrophe character (U+0027), written by code so that the source file
itself contains no apostrophe inside string literals. -/
def aposC : Char := Char.ofNat 39

/-- The right single quotation mark (U+2019) that `slugify_species`
replaces by a plain apostrophe. -/
def curlyC : Char := Char.ofNat 8217

/-- The characters stripped by Python `str.strip()` (ASCII fragment). -/
def isPySpace (c : Char) : Bool :=
  c = ' ' || c = '\t' || c = '\n' || c = '\x0d' || c = '\x0b' || c = '\x0c'

/-- ASCII `str.lower()` on one character. -/
def lowerC (c : Char) : Char :=
  if 'A' ≤ c && c ≤ 'Z' then Char.ofNat (c.toNat + 32) else c

/-- ASCII `str.upper()` on one character. -/
def upperC (c : Char) : Char :=
  if 'a' ≤ c && c ≤ 'z' then Char.ofNat (c.toNat - 32) else c

/-- `str.lower()`. -/
def lowerS (s : Str) : Str := s.map lowerC

/-- `str.upper()`. -/
def upperS (s : Str) : Str := s.map upperC

/-- `str.lstrip()`. -/
def trimLeft (s : Str) : Str := s.dropWhile isPySpace

/-- `str.rstrip()`, via the reversed list. -/
def trimRight (s : Str) : Str := (trimLeft s.reverse).reverse

/-- `str.strip()`. -/
def trimS (s : Str) : Str := trimLeft (trimRight s)

/-- Python's substring test `needle in haystack`. -/
def isSubstr (needle haystack : Str) : Bool :=
  decide (needle <:+: haystack)

/-- Split a string at every character satisfying `sep` (the behaviour of
`re.split` on a single-character class, and of `str.split(c)`): separators are
not kept, empty pieces are kept. -/
def splitOnP (sep : Char → Bool) : Str → List Str
  | [] => [[]]
  | c :: cs =>
    if sep c then [] :: splitOnP sep cs
    else
      match splitOnP sep cs with
      | [] => [[c]]
      | p :: ps => (c :: p) :: ps

/-- ASCII digit test. -/
def isDigitC (c : Char) : Bool := '0' ≤ c && c ≤ '9'

/-- Value of an ASCII digit. -/
def digitVal (c : Char) : ℕ := c.toNat - '0'.toNat

/-- Decimal value of a digit string. -/
def digitsVal (s : Str) : ℕ := s.foldl (fun acc c => acc * 10 + digitVal c) 0

/-- Digit-run validity for Python integer literals: digits in which single
underscores may appear strictly between digits. -/
def digitsOk : Str → Bool
  | [] => true
  | ['_'] => false
  | '_' :: '_' :: _ => false
  | '_' :: c :: cs => isDigitC c && digitsOk (c :: cs)
  | c :: cs => isDigitC c && digitsOk cs

/-- Python `int(str)`: optional surrounding whitespace, an optional sign, then
a nonempty run of digits in which single underscores may appear between
digits.  Returns `none` where Python raises `ValueError`. -/
def parsePyInt (s : Str) : Option ℤ :=
  let t := trimS s
  let (neg, u) : Bool × Str :=
    match t with
    | '-' :: r => (true, r)
    | '+' :: r => (false, r)
    | r => (false, r)
  match u with
  | [] => none
  | '_' :: _ => none
  | u =>
    if digitsOk u then
      let v : ℤ := digitsVal (u.filter (· ≠ '_'))
      some (if neg then -v else v)
    else none

/-- Decimal rendering of a natural number (for Python `str(int)`). -/
def natRepr (n : ℕ) : Str := Nat.toDigits 10 n

/-- Decimal rendering of an integer. -/
def intRepr (n : ℤ) : Str :=
  if n < 0 then '-' :: natRepr n.natAbs else natRepr n.toNat

/-- The dynamic Python values the code inspects (`None`, `bool`, `int`,
`str`).  Floats never reach the inspected positions. -/
inductive PyVal : Type
  | none : PyVal
  | bool : Bool → PyVal
  | int : ℤ → PyVal
  | str : Str → PyVal
deriving DecidableEq

/-- Python truthiness, `bool(v)`. -/
def pyBool : PyVal → Bool
  | .none => false
  | .bool b => b
  | .int n => n ≠ 0
  | .str s => s ≠ []

/-- The filter language's `_truthy` coercion (stricter than `bool(v)`):
only the strings `1/true/yes/y` count as true. -/
def pyTruthy : PyVal → Bool
  | .bool b => b
  | .int n => n ≠ 0
  | .str s =>
    let t := lowerS (trimS s)
    t = sc "1" || t = sc "true" || t = sc "yes" || t = sc "y"
  | .none => false

/-- Python `v == True` (`True == 1` holds in Python). -/
def pyEqTrue : PyVal → Bool
  | .bool b => b
  | .int n => n = 1
  | _ => false

/-- Python `str(v)`. -/
def pyStrOf : PyVal → Str
  | .none => sc "None"
  | .bool b => if b then sc "True" else sc "False"
  | .int n => intRepr n
  | .str s => s

/-- Python `v or ""` followed by `str(...)` (the idiom `str(x or "")`). -/
def pyStrOrEmpty (v : PyVal) : Str :=
  if pyBool v then pyStrOf v else []

/-- Python `(x or d)` for an optional integer field with integer default:
a present `0` is falsy and falls through to the default. -/
def pyOrInt (v : Option ℤ) (d : ℤ) : ℤ :=
  match v with
  | some n => if n ≠ 0 then n else d
  | none => d

/-- Python `(s or d)` for strings: the empty string falls through. -/
def pyOrStr (s d : Str) : Str := if s = [] then d else s

/-! ### The creature-record data model

`CreatureRecord`s are JSON objects; the embedding gives them a fixed shape
holding exactly the fields the verified code reads or writes.  A field whose
absence the code distinguishes (`dict.get` with `None` default, or key
removal) is an `Option`; fields only ever read through a defaulting `get`
carry the `Option` as well, with the default applied at the read site. -/

/-- The `locationCard` sub-dictionary of a display block. -/
structure LocCardD : Type where
  name : PyVal
deriving DecidableEq

/-- A `display` block (either on the record itself or under `source`).
`locationCard` is `some` exactly when the field holds a dictionary. -/
structure DisplayD : Type where
  form : PyVal
  hasLocationCard : PyVal
  locationCard : Option LocCardD
  locationCardName : PyVal
deriving DecidableEq

/-- The raw SpeedUnlocker record stored under `source` on enriched records. -/
structure SourceD : Type where
  display : Option DisplayD
  pokemonEnum : PyVal
deriving DecidableEq

/-- The `dynamax` field: a dictionary (modelled as its key/value pairs), a
boolean, or anything else (collapsed to `none`, which the code treats the
same way). -/
inductive DynV : Type
  | none : DynV
  | bool : Bool → DynV
  | dict : List (Str × PyVal) → DynV
deriving DecidableEq

/-- First-match association-list lookup (Python `dict.get`). -/
def alGet (kvs : List (Str × PyVal)) (k : Str) : PyVal :=
  match kvs.find? (fun kv => kv.1 = k) with
  | some kv => kv.2
  | none => .none

/-- A creature record: the "core" fields consumed by the search filter and
the matcher, plus the all-or-nothing `pvp_*` annotation block. -/
structure Rec : Type where
  name : Str := []
  form : Option Str := none
  search_text : Str := []
  family : Str := []
  number : Option ℤ := none
  cp : Option ℤ := none
  hp : Option ℤ := none
  attack : Option ℤ := none
  defence : Option ℤ := none
  stamina : Option ℤ := none
  iv_tier : Str := []
  shiny : PyVal := .none
  shadow : PyVal := .none
  purified : PyVal := .none
  lucky : PyVal := .none
  legendary : PyVal := .none
  mythical : PyVal := .none
  gender : Str := []
  height_label : Str := []
  weight_label : Str := []
  types : List Str := []
  costume : PyVal := .none
  shundo : PyVal := .none
  nundo : PyVal := .none
  apex : PyVal := .none
  gigantamax : PyVal := .none
  dynamax : DynV := .none
  display : Option DisplayD := none
  source : Option SourceD := none
  pokemonEnum : PyVal := .none
  base_attack : Option ℤ := none
  base_atk : Option ℤ := none
  base_defence : Option ℤ := none
  base_def : Option ℤ := none
  base_stamina : Option ℤ := none
  base_sta : Option ℤ := none
  pvp_enabled : Option Bool := none
  pvp_league : Option Str := none
  pvp_rank_top10 : Option ℕ := none
  pvp_distance_max : Option ℤ := none
  pvp_distance_sum : Option ℤ := none
  pvp_delta_atk : Option ℤ := none
  pvp_delta_def : Option ℤ := none
  pvp_delta_stm : Option ℤ := none
  pvp_meta_atk : Option ℕ := none
  pvp_meta_def : Option ℕ := none
  pvp_meta_stm : Option ℕ := none
  pvp_meta_level : Option ℕ := none
  pvp_meta_cp : Option ℤ := none
  pvp_best_atk : Option ℕ := none
  pvp_best_def : Option ℕ := none
  pvp_best_stm : Option ℕ := none
  pvp_best_level : Option ℕ := none
  pvp_best_cp : Option ℤ := none
  pvp_species_pfx : Option Str := none
  pvp_species_id : Option PyVal := none
  pvp_rating : Option (Option ℤ) := none
  pvp_meta_rank : Option ℕ := none
  pvp_category : Option Str := none
deriving DecidableEq

/-- All fields of the PVP-annotation block are present. -/
def pvpAllPresent (p : Rec) : Bool :=
  p.pvp_enabled.isSome && p.pvp_league.isSome && p.pvp_rank_top10.isSome &&
  p.pvp_distance_max.isSome && p.pvp_distance_sum.isSome &&
  p.pvp_delta_atk.isSome && p.pvp_delta_def.isSome && p.pvp_delta_stm.isSome &&
  p.pvp_meta_atk.isSome && p.pvp_meta_def.isSome && p.pvp_meta_stm.isSome &&
  p.pvp_meta_level.isSome && p.pvp_meta_cp.isSome &&
  p.pvp_best_atk.isSome && p.pvp_best_def.isSome && p.pvp_best_stm.isSome &&
  p.pvp_best_level.isSome && p.pvp_best_cp.isSome &&
  p.pvp_species_pfx.isSome && p.pvp_species_id.isSome &&
  p.pvp_rating.isSome && p.pvp_meta_rank.isSome && p.pvp_category.isSome

/-- All fields of the PVP-annotation block are absent. -/
def pvpAllAbsent (p : Rec) : Bool :=
  p.pvp_enabled.isNone && p.pvp_league.isNone && p.pvp_rank_top10.isNone &&
  p.pvp_distance_max.isNone && p.pvp_distance_sum.isNone &&
  p.pvp_delta_atk.isNone && p.pvp_delta_def.isNone && p.pvp_delta_stm.isNone &&
  p.pvp_meta_atk.isNone && p.pvp_meta_def.isNone && p.pvp_meta_stm.isNone &&
  p.pvp_meta_level.isNone && p.pvp_meta_cp.isNone &&
  p.pvp_best_atk.isNone && p.pvp_best_def.isNone && p.pvp_best_stm.isNone &&
  p.pvp_best_level.isNone && p.pvp_best_cp.isNone &&
  p.pvp_species_pfx.isNone && p.pvp_species_id.isNone &&
  p.pvp_rating.isNone && p.pvp_meta_rank.isNone && p.pvp_category.isNone

/-- The record invariant: PVP fields all absent or all present together. -/
def pvpInvariant (p : Rec) : Bool := pvpAllAbsent p || pvpAllPresent p

/-! ### StatModel and LevelMultiplierTable

The source keeps `CPM_INT : dict[int, float]` and computes with IEEE floats.
The embedding keeps the table as rationals and systematically carries the
*square* of every multiplier (`msq = cpm^2`), because half-level multipliers
are `sqrt((a^2+b^2)/2)`: all squares are rational.  Every value the code
stores is an integer truncation of `q * sqrt r` with `q r : ℚ`, computed
exactly by `truncMulSqrt`.  Multipliers are physically nonnegative; the
squared representation identifies a table value `v` with `|v|`. -/

/-- The CP-multiplier table: level (1..51) to multiplier, as rationals. -/
abbrev Cpm : Type := List (ℕ × ℚ)

/-- `CPM_INT.get(k, 0.0)`. -/
def cpmGet (t : Cpm) (k : ℕ) : ℚ :=
  match t.find? (fun kv => kv.1 = k) with
  | some kv => kv.2
  | none => 0

/-- Levels are carried as half-steps: `hl` stands for level `hl / 2`, so the
ladder 1.0, 1.5, …, 51.0 is `hl = 2, 3, …, 102`. -/
def PVP_LEVELS : List ℕ := (List.range 101).map (· + 2)

/-- `reversed(PVP_LEVELS)`. -/
def revLevels : List ℕ := PVP_LEVELS.reverse

/-- The square of `get_cpm(level)` (total part, table known loaded): integer
levels read the table; half levels interpolate
`cpm(L+0.5)^2 = (cpm(L)^2 + cpm(L+1)^2)/2`, and are 0 ("unusable") when
either endpoint is missing or 0.  Out-of-table reads default to 0. -/
def get_cpm_sq0 (t : Cpm) (hl : ℕ) : ℚ :=
  if hl % 2 = 0 then
    let v := cpmGet t (hl / 2)
    v * v
  else
    let a := cpmGet t (hl / 2)
    let b := cpmGet t (hl / 2 + 1)
    if a = 0 || b = 0 then 0 else (a * a + b * b) / 2

/-- `get_cpm`, squared: raises (`Except.error`) when the table is empty,
exactly as the source's `raise RuntimeError("CP multipliers not loaded")`. -/
def get_cpm_sq (t : Cpm) (hl : ℕ) : Except Unit ℚ :=
  if t = [] then .error () else .ok (get_cpm_sq0 t hl)

/-- Exact `floor (sqrt r)` for a nonnegative rational `r`, using
`floor (sqrt (a/b)) = floor (natSqrt (a*b) / b)`. -/
def floorSqrtQ (r : ℚ) : ℤ :=
  (Nat.sqrt (r.num.toNat * r.den) / r.den : ℕ)

/-- Exact Python `int(q * sqrt r)` (truncation toward zero) for `r ≥ 0`,
computed as `floor (sqrt (q^2 * r))` with the sign of `q` restored. -/
def truncMulSqrt (q r : ℚ) : ℤ :=
  if 0 ≤ q then floorSqrtQ (q * q * r) else -(floorSqrtQ (q * q * r))

/-- `calc_cp`: with `m = sqrt msq ≥ 0` and nonnegative scaled stats, the
source's `int(atk * def**0.5 * sta**0.5 / 10)` equals
`int(((A+ia) * msq / 10) * sqrt ((D+id)(S+is)))`; the result is clamped to a
minimum of 10. -/
def calc_cp (base_atk base_def base_sta iv_atk iv_def iv_sta : ℤ)
    (msq : ℚ) : ℤ :=
  let q : ℚ := ((base_atk + iv_atk : ℤ) : ℚ) * msq / 10
  let r : ℕ := ((base_def + iv_def) * (base_sta + iv_sta) : ℤ).toNat
  max 10 (truncMulSqrt q (r : ℚ))

/-- `calc_stats`, restricted to the two components downstream code consumes:
`hp = int((base_sta+iv_sta) * m)` and
`product = atk * def * hp = (A+ia)(D+id) * msq * hp` (exactly rational).
The real-valued `atk`/`def` components are serialized by the source but never
read back by the verified operations, so they are not materialized. -/
def calc_stats (base_atk base_def base_sta iv_atk iv_def iv_sta : ℤ)
    (msq : ℚ) : ℤ × ℚ :=
  let hp : ℤ := truncMulSqrt ((base_sta + iv_sta : ℤ) : ℚ) msq
  let product : ℚ :=
    ((base_atk + iv_atk : ℤ) : ℚ) * ((base_def + iv_def : ℤ) : ℚ) * msq *
      (hp : ℚ)
  (hp, product)

/-- One surviving IV-spread candidate of `compute_top10_ivs` (the dictionary
the source appends to `results`). -/
structure Cand : Type where
  atk_iv : ℕ
  def_iv : ℕ
  stm_iv : ℕ
  /-- annotated level, in half-steps: the game level is `level / 2`. -/
  level : ℕ
  cp : ℤ
  product : ℚ
  hp : ℤ
deriving DecidableEq

/-- The level search of `compute_top10_ivs` for one IV triple: if level 51
already fits under the cap use it, else scan the ladder downward for the
first level with a usable (nonzero) multiplier whose CP fits; `none` means
the triple is discarded. -/
def findLevel (t : Cpm) (base_atk base_def base_sta : ℤ) (cap : ℤ)
    (maxMsq : ℚ) (ia idf isa : ℕ) : Option ℕ :=
  if calc_cp base_atk base_def base_sta ia idf isa maxMsq ≤ cap then
    some 102
  else
    revLevels.find? (fun hl =>
      let msq := get_cpm_sq0 t hl
      !(msq = 0) && decide (calc_cp base_atk base_def base_sta ia idf isa msq ≤ cap))

/-- Build the candidate record for a triple at its found level. -/
def mkCand (t : Cpm) (base_atk base_def base_sta : ℤ)
    (ia idf isa : ℕ) (hl : ℕ) : Cand :=
  let msq := get_cpm_sq0 t hl
  let st := calc_stats base_atk base_def base_sta ia idf isa msq
  { atk_iv := ia, def_iv := idf, stm_iv := isa, level := hl
    cp := calc_cp base_atk base_def base_sta ia idf isa msq
    product := st.2, hp := st.1 }

/-- All 4096 IV triples, in the source's loop order. -/
def allTriples : List (ℕ × ℕ × ℕ) :=
  (List.range 16).flatMap (fun ia =>
    (List.range 16).flatMap (fun idf =>
      (List.range 16).map (fun isa => (ia, idf, isa))))

/-- The sort key of `compute_top10_ivs`:
`(-product, -level, atk_iv, -def_iv, -stm_iv)`, compared lexicographically
(Python tuple comparison), packaged into nested lexicographic products. -/
def candKeyL (c : Cand) : Lex (ℚ × Lex (ℚ × Lex (ℤ × Lex (ℤ × ℤ)))) :=
  toLex (-c.product, toLex (-(c.level : ℚ),
    toLex ((c.atk_iv : ℤ), toLex (-(c.def_iv : ℤ), -(c.stm_iv : ℤ)))))

/-- The candidate ordering used by the sort. -/
def candLe (a b : Cand) : Prop := candKeyL a ≤ candKeyL b

instance : DecidableRel candLe := fun a b => by
  unfold candLe
  exact inferInstance

instance : IsTotal Cand candLe :=
  ⟨fun a b => le_total (candKeyL a) (candKeyL b)⟩

instance : IsTrans Cand candLe :=
  ⟨fun _ _ _ h1 h2 => le_trans h1 h2⟩

/-- `compute_top10_ivs`: top-10 IV spreads by stat product within a CP cap.
Returns `.error` where the source raises (empty multiplier table reached via
`get_cpm`). -/
def compute_top10_ivs (t : Cpm) (base_atk base_def base_sta : ℤ)
    (cp_cap : ℤ) : Except Unit (List Cand) :=
  if base_atk ≤ 0 ∨ base_def ≤ 0 ∨ base_sta ≤ 0 then .ok []
  else
    match get_cpm_sq t 102 with
    | .error e => .error e
    | .ok maxMsq =>
      let results := allTriples.filterMap (fun x =>
        (findLevel t base_atk base_def base_sta cp_cap maxMsq
            x.1 x.2.1 x.2.2).map
          (mkCand t base_atk base_def base_sta x.1 x.2.1 x.2.2))
      .ok ((results.insertionSort candLe).take 10)

/-- The list a caller observes: the payload of a successful run. -/
def resultList {ε α : Type} : Except ε (List α) → List α
  | .ok l => l
  | .error _ => []

/-- A usable multiplier table (spec notion): nonempty, with a positive
multiplier at every integer level 1..51 (half-level multipliers are then
automatically usable). -/
def usableCpm (t : Cpm) : Bool :=
  !(t = []) && ((List.range 51).all (fun i => decide (0 < cpmGet t (i + 1))))

/-! ### RankingIndex -/

/-- One matchup/counter sub-entry of a ranking entry. -/
structure MuD : Type where
  opponent : PyVal
  rating : Option ℤ
deriving DecidableEq

/-- One externally supplied ranking entry. -/
structure EntryD : Type where
  speciesId : PyVal
  rating : Option ℤ
  matchups : List MuD
  counters : List MuD
deriving DecidableEq

/-- `int(e.get("rating", 0) or 0)`. -/
def ratingOf (e : EntryD) : ℤ := pyOrInt e.rating 0

/-- The process-wide read-only context: the multiplier table, the discovered
category list (`PVP_CATEGORIES`, always containing `"overall"`), and the
per-(category, league) ranking lists (`_get_pvp_rankings`, with missing or
malformed files already collapsed to `[]`). -/
structure PvpEnv : Type where
  cpm : Cpm
  cats : List Str
  rankings : Str → Str → List EntryD

/-- `PVP_LEAGUE_CAPS`. -/
def PVP_LEAGUE_CAPS : List (Str × ℤ) :=
  [(sc "GL", 1500), (sc "UL", 2500), (sc "ML", 10000)]

/-- Lookup of a league's cap. -/
def leagueCap (league : Str) : Option ℤ :=
  (PVP_LEAGUE_CAPS.find? (fun kv => kv.1 = league)).map (·.2)

/-- `(category or "overall").lower()`, with unknown categories falling back
to the canonical default. -/
def normCategory (env : PvpEnv) (category : Str) : Str :=
  let cat := lowerS (pyOrStr category (sc "overall"))
  if cat ∈ env.cats then cat else sc "overall"

/-- A ranking entry paired with its derived 1-based rank. -/
structure BestEntry : Type where
  e : EntryD
  rank : ℕ
deriving DecidableEq

/-- The scan state of `best_ranking_entry_for_prefix`: the three candidate
buckets (exact, boundary, general-prefix), each holding the best entry seen
so far with its 1-based index. -/
structure ScanSt : Type where
  exact : Option (EntryD × ℕ)
  boundary : Option (EntryD × ℕ)
  general : Option (EntryD × ℕ)

/-- Keep the higher-rated entry, preferring the earlier one on ties
(the source updates only on `rating > stored`). -/
def keepBetter (cur : Option (EntryD × ℕ)) (e : EntryD) (idx : ℕ) :
    Option (EntryD × ℕ) :=
  match cur with
  | none => some (e, idx)
  | some m => if ratingOf e > ratingOf m.1 then some (e, idx) else cur

/-- One scan step of `best_ranking_entry_for_prefix`. -/
def scanStep (pfx : Str) (st : ScanSt) (ei : ℕ × EntryD) : ScanSt :=
  let e := ei.2
  match e.speciesId with
  | .str sid =>
    if sid = [] then st
    else if sid = pfx then { st with exact := keepBetter st.exact e ei.1 }
    else if (pfx ++ ['_']).isPrefixOf sid then
      { st with boundary := keepBetter st.boundary e ei.1 }
    else if pfx.isPrefixOf sid then
      { st with general := keepBetter st.general e ei.1 }
    else st
  | _ => st

/-- `best_ranking_entry_for_prefix` (the source name ends in a word this
development cannot use as an identifier suffix, hence `pfx`): single scan of
the bracket's ranking list, bucket precedence exact > boundary >
general-prefix, highest rating within the winning bucket, rank derived from
1-based list order.  The per-(category, league, prefix) memo cache is
modelled away. -/
def best_ranking_entry_for_pfx (env : PvpEnv) (category league pfx : Str) :
    Option BestEntry :=
  let cat := normCategory env category
  let st := ((env.rankings cat league).enumFrom 1).foldl (scanStep pfx)
    ⟨none, none, none⟩
  match st.exact <|> st.boundary <|> st.general with
  | none => none
  | some m => some ⟨m.1, m.2⟩

/-! ### MatchAnnotator -/

/-- The `SPECIAL_NAME_ALIASES` table. -/
def SPECIAL_NAME_ALIASES : List (Str × Str) :=
  [ (sc "mr mime", sc "mr._mime")
  , (sc "mr. mime", sc "mr._mime")
  , (sc "mime jr", sc "mime_jr")
  , (sc "mime jr.", sc "mime_jr")
  , (sc "type: null", sc "type-null")
  , (sc "farfetch" ++ [aposC, 'd'], sc "farfetchd")
  , (sc "farfetchd", sc "farfetchd")
  , (sc "sirfetch" ++ [aposC, 'd'], sc "sirfetchd")
  , (sc "sirfetchd", sc "sirfetchd") ]

/-- Alias lookup. -/
def aliasGet (k : Str) : Option Str :=
  (SPECIAL_NAME_ALIASES.find? (fun kv => kv.1 = k)).map (·.2)

/-- `slugify_species`.  The NFKD combining-mark stripping is modelled as the
identity (it only affects accented characters, which never occur in the
identifiers the verified operations compare). -/
def slugify_species (name : Str) : Str :=
  if name = [] then []
  else
    let s := lowerS (trimS name)
    let s_plain := s.map (fun c => if c = curlyC then aposC else c)
    match aliasGet s_plain with
    | some v => v
    | none =>
      let base := (s_plain.filter (fun c => c ≠ '.' && c ≠ aposC)).map
        (fun c => if c = ' ' then '-' else c)
      match aliasGet base with
      | some v => v
      | none => base

/-- `_normalize_form_suffix_token`. -/
def normFormTok (tok : Str) : Str :=
  let u := upperS tok
  if u = sc "ALOLA" || u = sc "ALOLAN" then sc "alolan"
  else if u = sc "GALAR" || u = sc "GALARIAN" then sc "galarian"
  else if u = sc "HISUI" || u = sc "HISUIAN" then sc "hisuian"
  else if u = sc "PALDEA" || u = sc "PALDEAN" then sc "paldean"
  else lowerS tok

/-- Drop empty strings and duplicates while preserving order. -/
def dedupNonEmpty : List Str → List Str :=
  fun l => (l.foldl (fun acc c =>
    if c = [] then acc else if c ∈ acc then acc else acc ++ [c]) [])

/-- `pvp_prefix_candidates`: the ordered list of ranking-identifier prefixes
to try for a record (full-form id, regional shorthands, bare species id;
shadow-suffixed variants first when the record is shadow).  The function also
reads `p.get("number")` in the source but never uses it. -/
def pvp_prefix_candidates (p : Rec) : List Str :=
  let form := upperS (p.form.getD [])
  let base : Str :=
    if form ≠ [] then
      if (sc "MR_MIME_").isPrefixOf form then sc "mr_mime"
      else if (sc "HO_OH_").isPrefixOf form then sc "ho_oh"
      else if (sc "PORYGON_Z_").isPrefixOf form then sc "porygon_z"
      else lowerS (form.takeWhile (· ≠ '_'))
    else (slugify_species p.name).map (fun c => if c = '-' then '_' else c)
  let fullForm : List Str :=
    if form ≠ [] ∧ base ≠ [] ∧ (upperS base ++ ['_']).isPrefixOf form then
      let remainder := form.drop (base.length + 1)
      if remainder ≠ [] ∧ remainder ≠ sc "NORMAL" then
        let remToks := (splitOnP (· = '_') remainder).filter (· ≠ [])
        let remNorm := List.intercalate ['_'] (remToks.map normFormTok)
        if remNorm ≠ [] then [base ++ '_' :: remNorm] else []
      else []
    else []
  let regional : List Str :=
    if form ≠ [] then
      (if isSubstr (sc "ALOLA") form then [base ++ sc "_alolan"] else []) ++
      (if isSubstr (sc "GALAR") form then [base ++ sc "_galarian"] else []) ++
      (if isSubstr (sc "HISUI") form then [base ++ sc "_hisuian"] else []) ++
      (if isSubstr (sc "PALDEA") form then [base ++ sc "_paldean"] else [])
    else []
  let candidates := fullForm ++ regional ++ [base]
  let out :=
    if pyBool p.shadow then candidates.map (· ++ sc "_shadow") ++ candidates
    else candidates
  dedupNonEmpty out

/-- The best matching spread found by the annotation loop. -/
structure BestM : Type where
  rank : ℕ
  cand : Cand
  da : ℤ
  dd : ℤ
  ds : ℤ
  score : ℤ × ℤ
deriving DecidableEq

/-- Python tuple `<` on integer pairs. -/
def pairLtZ (p q : ℤ × ℤ) : Bool :=
  decide (p.1 < q.1 ∨ (p.1 = q.1 ∧ p.2 < q.2))

/-- The per-axis deltas of a record's IVs against a spread. -/
def candDeltas (iva ivd ivs : ℤ) (c : Cand) : ℤ × ℤ × ℤ :=
  (iva - c.atk_iv, ivd - c.def_iv, ivs - c.stm_iv)

/-- A spread matches when every axis delta has absolute value ≤ threshold. -/
def candMatches (iva ivd ivs threshold : ℤ) (c : Cand) : Bool :=
  let d := candDeltas iva ivd ivs c
  decide (|d.1| ≤ threshold) && decide (|d.2.1| ≤ threshold) &&
    decide (|d.2.2| ≤ threshold)

/-- The (max-delta, sum-of-deltas) score of a spread. -/
def candScore (iva ivd ivs : ℤ) (c : Cand) : ℤ × ℤ :=
  let d := candDeltas iva ivd ivs c
  (max |d.1| (max |d.2.1| |d.2.2|), |d.1| + |d.2.1| + |d.2.2|)

/-- The best-match record built from an enumerated candidate. -/
def newBestM (iva ivd ivs : ℤ) (ic : ℕ × Cand) : BestM :=
  ⟨ic.1, ic.2, (candDeltas iva ivd ivs ic.2).1,
    (candDeltas iva ivd ivs ic.2).2.1, (candDeltas iva ivd ivs ic.2).2.2,
    candScore iva ivd ivs ic.2⟩

/-- One step of the annotation loop over the enumerated top spreads. -/
def matchStep (iva ivd ivs threshold : ℤ) (best : Option BestM)
    (ic : ℕ × Cand) : Option BestM :=
  if candMatches iva ivd ivs threshold ic.2 then
    let d := candDeltas iva ivd ivs ic.2
    let sco := candScore iva ivd ivs ic.2
    let nb : BestM := ⟨ic.1, ic.2, d.1, d.2.1, d.2.2, sco⟩
    match best with
    | none => some nb
    | some b => if pairLtZ sco b.score then some nb else best
  else best

/-- The matching loop of `pvp_match_and_annotate` over the top-N spreads
(1-based enumeration). -/
def bestSpreadMatch (iva ivd ivs threshold : ℤ) (top : List Cand) :
    Option BestM :=
  (top.enumFrom 1).foldl (matchStep iva ivd ivs threshold) none

/-- `pvp_match_and_annotate`: returns the success flag together with the
(possibly annotated) record; `.error` models the exception the source lets
escape from `get_cpm` via `compute_top10_ivs` when the multiplier table is
empty.  The spread cache (`PVP_TOP10_IV_CACHE`, keyed by number/form/league)
is modelled by the recomputation it stores. -/
def pvp_match_and_annotate (env : PvpEnv) (p : Rec) (league : Str)
    (category : Str) (threshold : ℤ) (top_n : ℕ) :
    Except Unit (Bool × Rec) :=
  match leagueCap league with
  | none => .ok (false, p)
  | some cap =>
    match p.attack, p.defence, p.stamina with
    | some iva, some ivd, some ivs =>
      let base_atk := pyOrInt p.base_attack (pyOrInt p.base_atk 0)
      let base_def := pyOrInt p.base_defence (pyOrInt p.base_def 0)
      let base_sta := pyOrInt p.base_stamina (pyOrInt p.base_sta 0)
      match (pvp_prefix_candidates p).findSome? (fun pref =>
          (best_ranking_entry_for_pfx env category league pref).map
            (fun be => (pref, be))) with
      | none => .ok (false, p)
      | some (pref, be) =>
        if (match p.cp with
            | some c => decide (c > cap)
            | none => false) then .ok (false, p)
        else
          match compute_top10_ivs env.cpm base_atk base_def base_sta cap with
          | .error e => .error e
          | .ok full =>
            match full.take top_n with
            | [] => .ok (false, p)
            | t0 :: _ =>
              match bestSpreadMatch iva ivd ivs threshold (full.take top_n) with
              | none => .ok (false, p)
              | some b =>
                .ok (true, { p with
                  pvp_enabled := some true
                  pvp_league := some league
                  pvp_rank_top10 := some b.rank
                  pvp_distance_max := some b.score.1
                  pvp_distance_sum := some b.score.2
                  pvp_delta_atk := some b.da
                  pvp_delta_def := some b.dd
                  pvp_delta_stm := some b.ds
                  pvp_meta_atk := some b.cand.atk_iv
                  pvp_meta_def := some b.cand.def_iv
                  pvp_meta_stm := some b.cand.stm_iv
                  pvp_meta_level := some b.cand.level
                  pvp_meta_cp := some b.cand.cp
                  pvp_best_atk := some t0.atk_iv
                  pvp_best_def := some t0.def_iv
                  pvp_best_stm := some t0.stm_iv
                  pvp_best_level := some t0.level
                  pvp_best_cp := some t0.cp
                  pvp_species_pfx := some pref
                  pvp_species_id := some be.e.speciesId
                  pvp_rating := some be.e.rating
                  pvp_meta_rank := some be.rank
                  pvp_category := some (lowerS (pyOrStr category (sc "overall"))) })
    | _, _, _ => .ok (false, p)

/-! ### TeamSynthesizer: `_team_score` -/

/-- A prepared team member: its meta rank and its opponent-rating maps
(Python dicts, modelled as insertion-ordered association lists). -/
structure Prepared : Type where
  rank : ℤ
  matchups : List (Str × ℤ)
  counters : List (Str × ℤ)
deriving DecidableEq

/-- `d.get(k, dflt)` on an integer-valued dict. -/
def dictGetZ (d : List (Str × ℤ)) (k : Str) (dflt : ℤ) : ℤ :=
  match d.find? (fun kv => kv.1 = k) with
  | some kv => kv.2
  | none => dflt

/-- `threats[oid] = min(threats.get(oid, 999), rating)`: in-place update of an
existing key, append of a new one. -/
def dictUpdMin : List (Str × ℤ) → Str → ℤ → List (Str × ℤ)
  | [], k, v => [(k, min 999 v)]
  | kv0 :: rest, k, v =>
    if kv0.1 = k then (kv0.1, min kv0.2 v) :: rest
    else kv0 :: dictUpdMin rest k v

/-- `strengths[oid] = max(strengths.get(oid, 0), rating)`. -/
def dictUpdMax : List (Str × ℤ) → Str → ℤ → List (Str × ℤ)
  | [], k, v => [(k, max 0 v)]
  | kv0 :: rest, k, v =>
    if kv0.1 = k then (kv0.1, max kv0.2 v) :: rest
    else kv0 :: dictUpdMax rest k v

/-- `GOOD_MATCHUP_THRESHOLD` / `COVERAGE_THRESHOLD`. -/
def COVERAGE_THRESHOLD : ℤ := 550

/-- The threats dict: union of every member's counters, accumulated with
`dictUpdMin` in member/list order. -/
def teamThreats (team : List Prepared) : List (Str × ℤ) :=
  team.foldl (fun th m =>
    m.counters.foldl (fun th2 kv => dictUpdMin th2 kv.1 kv.2) th) []

/-- A threat is covered when some member has a strong matchup against it. -/
def threatCovered (team : List Prepared) (oid : Str) : Bool :=
  team.any (fun m => decide (dictGetZ m.matchups oid 0 ≥ COVERAGE_THRESHOLD))

/-- The uncovered-threats dict (iteration order of the threats dict). -/
def teamUncovered (team : List Prepared) : List (Str × ℤ) :=
  (teamThreats team).filter (fun kv => !threatCovered team kv.1)

/-- The strengths dict: union of good matchups, accumulated with
`dictUpdMax`. -/
def teamStrengths (team : List Prepared) : List (Str × ℤ) :=
  team.foldl (fun st m =>
    m.matchups.foldl (fun st2 kv =>
      if kv.2 ≥ COVERAGE_THRESHOLD then dictUpdMax st2 kv.1 kv.2 else st2) st) []

/-- One opponent line of a team summary card. -/
structure SEntry : Type where
  id : Str
  name : Str
  rating : ℤ
deriving DecidableEq

/-- A scored team summary. -/
structure TeamSummary : Type where
  score : ℤ
  strengths : List SEntry
  weaknesses : List SEntry
deriving DecidableEq

/-- Display-name map lookup. -/
def nmGet (nm : List (Str × Str)) (k : Str) : Option Str :=
  (nm.find? (fun kv => kv.1 = k)).map (·.2)

/-- Python `s.replace(old, new)` (all occurrences, left to right), by fuel. -/
def replaceSubGo (old new : Str) : ℕ → Str → Str
  | 0, s => s
  | _ + 1, [] => []
  | fuel + 1, c :: cs =>
    if old.isPrefixOf (c :: cs) then new ++ replaceSubGo old new fuel ((c :: cs).drop old.length)
    else c :: replaceSubGo old new fuel cs

/-- Python `s.replace(old, new)` for nonempty `old`. -/
def replaceSub (old new s : Str) : Str := replaceSubGo old new s.length s

/-- `_nm`: best-effort display name of an opponent identifier. -/
def displayNm (nm : List (Str × Str)) (oid : Str) : Str :=
  match nmGet nm oid with
  | some v => v
  | none =>
    let base := replaceSub (sc "_shadow") [] oid
    match nmGet nm base with
    | some v => v
    | none => oid.map (fun c => if c = '_' then ' ' else c)

/-- Sort order of the strengths card (rating descending). -/
def ratingDesc (a b : Str × ℤ) : Prop := b.2 ≤ a.2

instance : DecidableRel ratingDesc := fun a b => by unfold ratingDesc; exact inferInstance

/-- Sort order of the weaknesses card (rating ascending, worst first). -/
def ratingAsc (a b : Str × ℤ) : Prop := a.2 ≤ b.2

instance : DecidableRel ratingAsc := fun a b => by unfold ratingAsc; exact inferInstance

/-- `_team_score`: the score together with the summary card.  The source's
`sorted(...)` is a stable sort; sortedness is all downstream code relies on,
and the embedding uses insertion sort. -/
def team_score (name_map : List (Str × Str)) (team : List Prepared) :
    ℤ × TeamSummary :=
  let meta_score : ℤ := (team.map (fun m => max 0 (2000 - m.rank))).sum
  let threats := teamThreats team
  let uncovered := teamUncovered team
  let strengths := teamStrengths team
  let uncovered_count : ℤ := uncovered.length
  let score : ℤ :=
    meta_score + ((threats.length : ℤ) - uncovered_count) * 10 -
      uncovered_count * 120
  let strengths_list := ((strengths.insertionSort ratingDesc).take 8).map
    (fun kv => SEntry.mk kv.1 (displayNm name_map kv.1) kv.2)
  let weaknesses_list := ((uncovered.insertionSort ratingAsc).take 8).map
    (fun kv => SEntry.mk kv.1 (displayNm name_map kv.1) kv.2)
  (score, ⟨score, strengths_list, weaknesses_list⟩)

/-! Specification-side definitions for the team score (following the spec's
wording, to be compared with `team_score`): the meta score, the set of
threat identifiers (union of the members' counters), and the uncovered
count. -/

/-- Spec: "meta score: sum over members of `max(0, 2000 − metaRank)`". -/
def specMetaScore (team : List Prepared) : ℤ :=
  (team.map (fun m => max 0 (2000 - m.rank))).sum

/-- Spec: the set of threatened-by identifiers — the union of all counters
across members. -/
def specThreatIds (team : List Prepared) : Finset Str :=
  (team.flatMap (fun m => m.counters.map (·.1))).toFinset

/-- Spec: a threat is uncovered exactly when no member has a matchup rating
`≥ 550` against it. -/
def specUncovered (team : List Prepared) (oid : Str) : Prop :=
  ¬ ∃ m ∈ team, COVERAGE_THRESHOLD ≤ dictGetZ m.matchups oid 0

instance (team : List Prepared) (oid : Str) : Decidable (specUncovered team oid) := by
  unfold specUncovered; exact inferInstance

/-- Spec: the final team score
`metaScore + (totalThreats − uncoveredCount)×10 − uncoveredCount×120`. -/
def specTeamScore (team : List Prepared) : ℤ :=
  let totalThreats : ℤ := (specThreatIds team).card
  let uncoveredCount : ℤ :=
    ((specThreatIds team).filter (specUncovered team)).card
  specMetaScore team + (totalThreats - uncoveredCount) * 10 -
    uncoveredCount * 120

/-! ### SearchFilterEngine -/

/-- `match_range`: range queries `cp100`, `cp100-`, `cp-100`, `cp100-200`
(`query` still carries the prefix, which is dropped by length).  Parse
failures (`ValueError`/`IndexError`) yield `false`. -/
def match_range (query pfx : Str) (value : ℤ) : Bool :=
  let q := query.drop pfx.length
  if ¬ '-' ∈ q then
    match parsePyInt q with
    | some n => value = n
    | none => false
  else
    let parts := splitOnP (· = '-') q
    if q.head? = some '-' then
      match parts[1]? with
      | some p1 =>
        match parsePyInt p1 with
        | some mx => value ≤ mx
        | none => false
      | none => false
    else if q.getLast? = some '-' then
      match parts.head? with
      | some p0 =>
        match parsePyInt p0 with
        | some mn => mn ≤ value
        | none => false
      | none => false
    else
      match parts.head?, parts[1]? with
      | some p0, some p1 =>
        (match parsePyInt p0 with
        | some mn =>
          if p1 = [] then decide (mn ≤ value) && decide (value ≤ 999999)
          else
            match parsePyInt p1 with
            | some mx => decide (mn ≤ value) && decide (value ≤ mx)
            | none => false
        | none => false)
      | _, _ => false

/-- `match_number_range`: like `match_range` without a prefix and without
the open-upper-bound default. -/
def match_number_range (query : Str) (number : ℤ) : Bool :=
  if ¬ '-' ∈ query then
    match parsePyInt query with
    | some n => number = n
    | none => false
  else
    let parts := splitOnP (· = '-') query
    if query.head? = some '-' then
      match parts[1]? with
      | some p1 =>
        match parsePyInt p1 with
        | some mx => number ≤ mx
        | none => false
      | none => false
    else if query.getLast? = some '-' then
      match parts.head? with
      | some p0 =>
        match parsePyInt p0 with
        | some mn => mn ≤ number
        | none => false
      | none => false
    else
      match parts.head?, parts[1]? with
      | some p0, some p1 =>
        (match parsePyInt p0 with
        | some mn =>
          match parsePyInt p1 with
          | some mx => decide (mn ≤ number) && decide (number ≤ mx)
          | none => false
        | none => false)
      | _, _ => false

/-- The regex `^\d+(-\d*)?$|^-\d+$` of the number-range atom. -/
def numTokB (s : Str) : Bool :=
  let ds := s.takeWhile isDigitC
  let rest := s.drop ds.length
  (ds ≠ [] &&
    (rest = [] ||
      (rest.head? = some '-' && (rest.drop 1).all isDigitC))) ||
  (s.head? = some '-' && !(s.drop 1 = []) && (s.drop 1).all isDigitC)

/-- The regex `^[0-4]\*$` of the IV-star atom. -/
def starTokB (s : Str) : Bool :=
  match s with
  | [c, '*'] => '0' ≤ c && c ≤ '4'
  | _ => false

/-- ASCII alphanumeric test. -/
def isAlnumC (c : Char) : Bool :=
  isDigitC c || ('a' ≤ c && c ≤ 'z') || ('A' ≤ c && c ≤ 'Z')

/-- ASCII lowercase-letter test. -/
def isLowerLetterC (c : Char) : Bool := 'a' ≤ c && c ≤ 'z'

/-- ASCII uppercase-letter test. -/
def isUpperLetterC (c : Char) : Bool := 'A' ≤ c && c ≤ 'Z'

/-- Insert `_` between a lowercase/digit character and an uppercase one
(the regex `([a-z0-9])([A-Z]) -> \1_\2`). -/
def camelSplit : Str → Str
  | [] => []
  | [c] => [c]
  | c1 :: c2 :: cs =>
    if (isLowerLetterC c1 || isDigitC c1) && isUpperLetterC c2 then
      c1 :: '_' :: camelSplit (c2 :: cs)
    else c1 :: camelSplit (c2 :: cs)

/-- Collapse runs of `_` (the regex `_+ -> _`). -/
def collapseUnders : Str → Str
  | [] => []
  | [c] => [c]
  | c1 :: c2 :: cs =>
    if c1 = '_' && c2 = '_' then collapseUnders (c2 :: cs)
    else c1 :: collapseUnders (c2 :: cs)

/-- `str.strip("_")`. -/
def stripUnders (s : Str) : Str :=
  (((s.dropWhile (· = '_')).reverse).dropWhile (· = '_')).reverse

/-- `_camel_to_upper_snake`.  Replacing every non-alphanumeric character by
`_` individually (instead of per run) is equivalent because the runs are
collapsed afterwards. -/
def camel_to_upper_snake (s : Str) : Str :=
  if s = [] then []
  else
    let s2 := s.map (fun c => if isAlnumC c then c else '_')
    upperS (stripUnders (collapseUnders (camelSplit s2)))

/-- `_strip_known_prefix`: drop the first matching prefix of the list. -/
def stripKnownPfx (value : Str) (pfxs : List Str) : Str :=
  if value = [] then []
  else
    match pfxs.find? (fun p => p.isPrefixOf value) with
    | some p => value.drop p.length
    | none => value

/-- `_is_false_positive_gigantamax_display_form`. -/
def fpGmaxForm (s : Str) : Bool :=
  !(s = []) &&
    (isSubstr (sc "ZamazentaCrownedShield") s ||
     isSubstr (sc "ZacianCrownedSword") s ||
     s = sc "PokemonDisplayProto_Form_ZamazentaCrownedShield" ||
     s = sc "PokemonDisplayProto_Form_ZacianCrownedSword")

/-- The enum prefixes stripped before the Eternatus check. -/
def holoPfxs : List Str := [sc "HoloPokemonId_", sc "HoloPokemonId"]

/-- `_is_false_positive_gigantamax_record`. -/
def fpGmaxRecord (p : Rec) : Bool :=
  (match p.display with
   | some d => fpGmaxForm (pyStrOrEmpty d.form)
   | none => false) ||
  (camel_to_upper_snake (stripKnownPfx (pyStrOrEmpty p.pokemonEnum) holoPfxs) =
    sc "ETERNATUS") ||
  (match p.source with
   | some s =>
     (match s.display with
      | some d2 => fpGmaxForm (pyStrOrEmpty d2.form)
      | none => false) ||
     (camel_to_upper_snake
        (stripKnownPfx (pyStrOrEmpty s.pokemonEnum) holoPfxs) = sc "ETERNATUS")
   | none => false) ||
  (pyOrInt p.number 0 = 890) ||
  (match p.form with
   | some f => isSubstr (sc "ETERNATUS") f
   | none => false)

/-- `_is_gigantamax`. -/
def isGmax (p : Rec) : Bool :=
  if fpGmaxRecord p then false
  else
    pyBool p.gigantamax ||
      (match p.dynamax with
       | .dict kvs => pyBool (alGet kvs (sc "isGigantamaxLikely"))
       | _ => false)

/-- `_is_dynamax_only`. -/
def isDynamaxOnly (p : Rec) : Bool :=
  if isGmax p then false
  else
    match p.dynamax with
    | .dict kvs => !(kvs = [])
    | .bool b => b
    | .none => false

/-- `_check_display` of `_has_special_background`. -/
def checkDisplay (d : DisplayD) : Bool :=
  pyBool d.hasLocationCard ||
  (match d.locationCard with
   | some lc =>
     let nm := trimS (pyStrOrEmpty lc.name)
     !(nm = []) && !(isSubstr (sc "unset") (lowerS nm))
   | none => false) ||
  (let nm2 := trimS (pyStrOrEmpty d.locationCardName)
   !(nm2 = []) && !(isSubstr (sc "unset") (lowerS nm2)))

/-- `_has_special_background`. -/
def hasSpecialBackground (p : Rec) : Bool :=
  (match p.display with
   | some d => checkDisplay d
   | none => false) ||
  (match p.source with
   | some s =>
     match s.display with
     | some d2 => checkDisplay d2
     | none => false
   | none => false)

/-- The elemental type keywords. -/
def TYPE_WORDS : List Str :=
  [sc "normal", sc "fire", sc "water", sc "electric", sc "grass", sc "ice",
   sc "fighting", sc "poison", sc "ground", sc "flying", sc "psychic",
   sc "bug", sc "rock", sc "ghost", sc "dragon", sc "dark", sc "steel",
   sc "fairy"]

/-- The atomic-predicate body of `apply_search_filter`: one record against
one operator-free (already trimmed and lowercased) query. -/
def atomicMatch (q : Str) (p : Rec) : Bool :=
  if q = sc "apex" then pyBool p.apex
  else if q.head? = some '+' then
    isSubstr (q.drop 1) (lowerS p.family)
  else if (sc "cp").isPrefixOf q then match_range q (sc "cp") ((p.cp).getD 0)
  else if (sc "hp").isPrefixOf q then match_range q (sc "hp") ((p.hp).getD 0)
  else if (sc "atk").isPrefixOf q then
    match_range q (sc "atk") ((p.attack).getD 0)
  else if (sc "def").isPrefixOf q then
    match_range q (sc "def") ((p.defence).getD 0)
  else if (sc "stm").isPrefixOf q then
    match_range q (sc "stm") ((p.stamina).getD 0)
  else if numTokB q then match_number_range q ((p.number).getD 0)
  else if starTokB q then
    match q.head? with
    | some c => p.iv_tier = [c, '*']
    | none => false
  else if q = sc "shiny" then pyTruthy p.shiny
  else if q = sc "shadow" then pyTruthy p.shadow
  else if q = sc "purified" then pyTruthy p.purified
  else if q = sc "lucky" then pyTruthy p.lucky
  else if q = sc "legendary" then pyTruthy p.legendary
  else if q = sc "mythical" then pyTruthy p.mythical
  else if q = sc "male" || q = sc "female" then lowerS p.gender = q
  else if q = sc "genderunknown" then
    !(lowerS p.gender = sc "male") && !(lowerS p.gender = sc "female")
  else if q = sc "xxs" || q = sc "xs" || q = sc "xl" || q = sc "xxl" then
    lowerS p.height_label = q || lowerS p.weight_label = q
  else if q ∈ TYPE_WORDS then q ∈ p.types
  else if q = sc "costume" then
    !(p.costume = PyVal.none) && !(p.costume = PyVal.str [])
  else if q = sc "shundo" then pyEqTrue p.shundo
  else if q = sc "nundo" then pyEqTrue p.nundo
  else if q = sc "gigantamax" || q = sc "gmax" then isGmax p
  else if q = sc "dynamax" then isDynamaxOnly p || isGmax p
  else if q = sc "background" then hasSpecialBackground p
  else
    isSubstr q (lowerS p.name) || isSubstr q (lowerS (p.form.getD [])) ||
      isSubstr q (lowerS p.search_text)

/-- OR separators of the query language. -/
def isOrSepC (c : Char) : Bool := c = ',' || c = ';'

/-- Top-level query normalization: `search_query.strip().lower()`. -/
def normQ (q : Str) : Str := trimS (lowerS q)

/-- Append the elements of `xs` that are not already present (by Python
`==`) to `acc`, in order — the `for p in part_results: if p not in results`
accumulation of the OR branch. -/
def dedupInto (acc : List Rec) : List Rec → List Rec
  | [] => acc
  | x :: xs => if x ∈ acc then dedupInto acc xs else dedupInto (acc ++ [x]) xs

/-- The recursive evaluator of `apply_search_filter`, by fuel (any fuel
larger than the normalized query length is exact; see
`apply_search_filter`).  Branch order is the source's: empty query, OR
split, AND split, NOT, atomic predicate. -/
def applyGo : ℕ → List Rec → Str → List Rec
  | 0, l, _ => l
  | fuel + 1, l, q =>
    let qn := normQ q
    if qn = [] then l
    else if qn.any isOrSepC then
      (splitOnP isOrSepC qn).foldl
        (fun acc part => dedupInto acc (applyGo fuel l (trimS part))) []
    else if '&' ∈ qn then
      (splitOnP (· = '&') qn).foldl
        (fun acc part => applyGo fuel acc (trimS part)) l
    else if qn.head? = some '!' then
      let matching := applyGo fuel l (qn.drop 1)
      l.filter (fun p => decide (¬ p ∈ matching))
    else l.filter (atomicMatch qn)

/-- `apply_search_filter`. -/
def apply_search_filter (l : List Rec) (q : Str) : List Rec :=
  applyGo ((normQ q).length + 1) l q

/-- The record-wise predicate denoted by an operator-free query (no OR
separator): AND splits into a conjunction, `!` negates, atoms are
`atomicMatch`.  Mirrors `applyGo`, by fuel. -/
def queryPredGo : ℕ → Str → Rec → Bool
  | 0, _, _ => true
  | fuel + 1, q, p =>
    let qn := normQ q
    if qn = [] then true
    else if qn.any isOrSepC then true
    else if '&' ∈ qn then
      (splitOnP (· = '&') qn).all (fun part => queryPredGo fuel (trimS part) p)
    else if qn.head? = some '!' then !(queryPredGo fuel (qn.drop 1) p)
    else atomicMatch qn p

/-- The canonical-fuel record-wise predicate of an operator-free query. -/
def queryPredC (q : Str) : Rec → Bool :=
  queryPredGo ((normQ q).length + 1) q

/-! ### Auxiliary definitions used by the verification statements -/

/-- A query with no top-level OR separator. -/
def noSepQ (s : Str) : Bool := !(s.any isOrSepC)

/-- CP of a fixed species/IV combination at a ladder level. -/
def cpAtLevel (t : Cpm) (base_atk base_def base_sta : ℤ)
    (ia idf isa : ℕ) (hl : ℕ) : ℤ :=
  calc_cp base_atk base_def base_sta ia idf isa (get_cpm_sq0 t hl)

/-- Spec-side bucket membership: exact identifier match (valid nonempty
string id equal to the prefix). -/
def inExactBucket (pfx : Str) (e : EntryD) : Bool :=
  match e.speciesId with
  | .str s => !(s = []) && s = pfx
  | _ => false

/-- Spec-side bucket membership: boundary match (`prefix + "_" + suffix`). -/
def inBoundaryBucket (pfx : Str) (e : EntryD) : Bool :=
  match e.speciesId with
  | .str s => !(s = []) && !(s = pfx) && (pfx ++ ['_']).isPrefixOf s
  | _ => false

/-- Spec-side bucket membership: general prefix match (neither exact nor
boundary). -/
def inGeneralBucket (pfx : Str) (e : EntryD) : Bool :=
  match e.speciesId with
  | .str s => !(s = []) && !(s = pfx) && !((pfx ++ ['_']).isPrefixOf s) &&
      pfx.isPrefixOf s
  | _ => false

/-- Invariant of one scan bucket over the processed (1-based enumerated)
entries: empty iff no processed entry belongs to the bucket, else a
bucket member of maximal rating, together with its enumeration index. -/
def bucketInv (b : EntryD → Bool) (o : Option (EntryD × ℕ))
    (processed : List (ℕ × EntryD)) : Prop :=
  (o = none → ∀ ei ∈ processed, b ei.2 = false) ∧
  (∀ m, o = some m → (m.2, m.1) ∈ processed ∧ b m.1 = true ∧
    ∀ ei ∈ processed, b ei.2 = true → ratingOf ei.2 ≤ ratingOf m.1)

/-- Concrete fixture: a record named "alpha". -/
def recAlpha : Rec := { name := sc "alpha" }

/-- Concrete fixture: a record named "beta". -/
def recBeta : Rec := { name := sc "beta" }

/-- Concrete fixture: a usable multiplier table (levels 1..51, all 1). -/
def cpmT1 : Cpm := (List.range 51).map (fun i => (i + 1, (1 : ℚ)))

/-- Concrete fixture: the perfect spread `(15,15,15)` as a candidate. -/
def cand15 : Cand :=
  { atk_iv := 15, def_iv := 15, stm_iv := 15, level := 102, cp := 1490
    product := 100, hp := 120 }

/-- Concrete fixture: a trivial environment (empty table, default category,
no rankings). -/
def env0 : PvpEnv :=
  { cpm := [], cats := [sc "overall"], rankings := fun _ _ => [] }

/-- Concrete fixture: one valid ranking entry for identifier `pika`. -/
def entryPika : EntryD :=
  { speciesId := .str (sc "pika"), rating := some 700, matchups := []
    counters := [] }

/-- Concrete fixture: a valid ranking entry for the longer identifier
`pika_alolan`. -/
def entryPikaLong : EntryD :=
  { speciesId := .str (sc "pika_alolan"), rating := some 900, matchups := []
    counters := [] }

/-- Concrete fixture: an environment whose GL rankings contain `pika` and
`pika_alolan`. -/
def envPika : PvpEnv :=
  { cpm := [], cats := [sc "overall"]
    rankings := fun c l =>
      if c = sc "overall" ∧ l = sc "GL" then [entryPikaLong, entryPika]
      else [] }

/-- Concrete fixture: a team member for the score witness. -/
def memA : Prepared :=
  { rank := 3, matchups := [(sc "azu", 600)], counters := [(sc "regi", 400)] }

/-- Concrete fixture: a second team member for the score witness. -/
def memB : Prepared :=
  { rank := 10, matchups := [(sc "regi", 300)]
    counters := [(sc "azu", 450), (sc "regi", 380)] }

/-! ### Character and string lemmas -/

theorem lowerC_toNat_of_upper {c : Char} (h1 : 'A' ≤ c) (h2 : c ≤ 'Z') :
    (lowerC c).toNat = c.toNat + 32 := by
  have hb : ('A' ≤ c && c ≤ 'Z') = true := by
    simp only [Bool.and_eq_true, decide_eq_true_eq]; exact ⟨h1, h2⟩
  have h1 : 65 ≤ c.toNat := h1
  have h2 : c.toNat ≤ 90 := h2
  have hv : (c.toNat + 32).isValidChar := by left; omega
  unfold lowerC
  rw [if_pos hb]
  simp [Char.ofNat, hv]
  rfl

theorem lowerC_eq_self_of_not_upper {c : Char} (h : ¬('A' ≤ c ∧ c ≤ 'Z')) :
    lowerC c = c := by
  unfold lowerC
  rw [if_neg]
  simp only [Bool.and_eq_true, decide_eq_true_eq]
  exact h

theorem lowerC_cases (c : Char) :
    lowerC c = c ∨
      (65 ≤ c.toNat ∧ c.toNat ≤ 90 ∧ (lowerC c).toNat = c.toNat + 32) := by
  by_cases h : 'A' ≤ c ∧ c ≤ 'Z'
  · right
    exact ⟨h.1, h.2, lowerC_toNat_of_upper h.1 h.2⟩
  · left; exact lowerC_eq_self_of_not_upper h

theorem char_eq_iff_toNat {a b : Char} : a = b ↔ a.toNat = b.toNat := by
  constructor
  · intro h; rw [h]
  · intro h
    unfold Char.toNat at h
    apply Char.ext
    exact UInt32.toNat.inj h

theorem lowerC_eq_low {c t : Char} (ht : t.toNat < 65) :
    lowerC c = t ↔ c = t := by
  rcases lowerC_cases c with h | ⟨h1, _h2, h3⟩
  · rw [h]
  · constructor
    · intro he
      exfalso
      have := char_eq_iff_toNat.mp he
      omega
    · intro he
      exfalso
      have := char_eq_iff_toNat.mp he
      omega

theorem isOrSepC_lowerC (c : Char) : isOrSepC (lowerC c) = isOrSepC c := by
  unfold isOrSepC
  have h1 : lowerC c = ',' ↔ c = ',' := lowerC_eq_low (by decide)
  have h2 : lowerC c = ';' ↔ c = ';' := lowerC_eq_low (by decide)
  simp only [Bool.or_eq_true, decide_eq_true_eq, h1, h2]

theorem amp_lowerC (c : Char) : (lowerC c = '&') ↔ c = '&' :=
  lowerC_eq_low (by decide)

theorem bang_lowerC (c : Char) : (lowerC c = '!') ↔ c = '!' :=
  lowerC_eq_low (by decide)

theorem isPySpace_lowerC (c : Char) : isPySpace (lowerC c) = isPySpace c := by
  unfold isPySpace
  have h1 : lowerC c = ' ' ↔ c = ' ' := lowerC_eq_low (by decide)
  have h2 : lowerC c = '\t' ↔ c = '\t' := lowerC_eq_low (by decide)
  have h3 : lowerC c = '\n' ↔ c = '\n' := lowerC_eq_low (by decide)
  have h4 : lowerC c = '\x0d' ↔ c = '\x0d' := lowerC_eq_low (by decide)
  have h5 : lowerC c = '\x0b' ↔ c = '\x0b' := lowerC_eq_low (by decide)
  have h6 : lowerC c = '\x0c' ↔ c = '\x0c' := lowerC_eq_low (by decide)
  simp only [Bool.or_eq_true, decide_eq_true_eq, h1, h2, h3, h4, h5, h6]

theorem lowerC_idem (c : Char) : lowerC (lowerC c) = lowerC c := by
  rcases lowerC_cases c with h | ⟨h1, h2, h3⟩
  · rw [h, h]
  · apply lowerC_eq_self_of_not_upper
    intro ⟨ha, hb⟩
    have ha : 65 ≤ (lowerC c).toNat := ha
    have hb : (lowerC c).toNat ≤ 90 := hb
    omega

theorem length_lowerS (s : Str) : (lowerS s).length = s.length :=
  List.length_map s lowerC

theorem lowerS_idem (s : Str) : lowerS (lowerS s) = lowerS s := by
  unfold lowerS
  rw [List.map_map]
  apply List.map_congr_left
  intro c _
  exact lowerC_idem c

theorem trimLeft_length_le (s : Str) : (trimLeft s).length ≤ s.length :=
  (List.dropWhile_sublist _).length_le

theorem trimRight_length_le (s : Str) : (trimRight s).length ≤ s.length := by
  unfold trimRight
  rw [List.length_reverse]
  calc (trimLeft s.reverse).length ≤ s.reverse.length := trimLeft_length_le _
    _ = s.length := List.length_reverse s

theorem trimS_length_le (s : Str) : (trimS s).length ≤ s.length :=
  le_trans (trimLeft_length_le _) (trimRight_length_le _)

theorem normQ_length_le (q : Str) : (normQ q).length ≤ q.length := by
  unfold normQ
  calc (trimS (lowerS q)).length ≤ (lowerS q).length := trimS_length_le _
    _ = q.length := length_lowerS q

theorem trimLeft_sublist (s : Str) : (trimLeft s).Sublist s :=
  List.dropWhile_sublist _

theorem trimRight_sublist (s : Str) : (trimRight s).Sublist s := by
  unfold trimRight
  have h := (trimLeft_sublist s.reverse).reverse
  simpa using h

theorem trimS_sublist (s : Str) : (trimS s).Sublist s :=
  List.Sublist.trans (trimLeft_sublist _) (trimRight_sublist _)

theorem mem_of_mem_trimS {c : Char} {s : Str} (h : c ∈ trimS s) : c ∈ s :=
  (trimS_sublist s).mem h

theorem mem_lowerS {c : Char} {s : Str} :
    c ∈ lowerS s ↔ ∃ d ∈ s, lowerC d = c := by
  unfold lowerS
  simp [List.mem_map]

/-- Characters of the normalized query come from lowering characters of the
raw query. -/
theorem mem_normQ {c : Char} {q : Str} (h : c ∈ normQ q) :
    ∃ d ∈ q, lowerC d = c := by
  have h2 : c ∈ lowerS q := mem_of_mem_trimS h
  exact mem_lowerS.mp h2

/-- Bounds for pieces of `splitOnP`: never longer than the input, and
strictly shorter when a separator occurs in the input. -/
theorem splitOnP_piece_bounds (sep : Char → Bool) (s : Str) :
    ∀ p ∈ splitOnP sep s,
      p.length ≤ s.length ∧ (s.any sep = true → p.length < s.length) := by
  induction s with
  | nil =>
    intro p hp
    unfold splitOnP at hp
    simp at hp
    simp [hp]
  | cons c cs ih =>
    intro p hp
    unfold splitOnP at hp
    by_cases hc : sep c = true
    · rw [if_pos hc] at hp
      rcases List.mem_cons.mp hp with h | h
      · subst h
        constructor
        · simp
        · intro _; simp
      · have := ih p h
        constructor
        · exact le_trans this.1 (by simp)
        · intro _
          exact lt_of_le_of_lt this.1 (by simp)
    · rw [if_neg hc] at hp
      rcases hsp : splitOnP sep cs with _ | ⟨p0, ps⟩
      · rw [hsp] at hp
        simp at hp
        subst hp
        constructor
        · simp
        · intro hany
          simp [List.any_cons, hc] at hany
          rcases hsp2 : splitOnP sep cs with _ | ⟨p1, ps1⟩
          · exfalso
            rcases hany with ⟨d, hd, hsepd⟩
            -- a separator in cs means cs splits into ≥ 2 pieces; but even
            -- the empty split contradicts hsp
            have : splitOnP sep cs ≠ [] := by
              induction cs with
              | nil => simp at hd
              | cons e es _ =>
                unfold splitOnP
                by_cases he : sep e = true
                · simp [he]
                · rw [if_neg he]
                  rcases splitOnP sep es with _ | _ <;> simp
            exact this hsp
          · rw [hsp] at hsp2; exact absurd hsp2 (by simp)
      · rw [hsp] at hp
        rcases List.mem_cons.mp hp with h | h
        · subst h
          have hb := ih p0 (by rw [hsp]; exact List.mem_cons_self _ _)
          constructor
          · simpa using Nat.succ_le_succ hb.1
          · intro hany
            simp only [List.any_cons, hc, Bool.false_or] at hany
            have := hb.2 hany
            simpa using Nat.succ_lt_succ this
        · have hb := ih p (by rw [hsp]; exact List.mem_cons_of_mem _ h)
          constructor
          · exact le_trans hb.1 (by simp)
          · intro _
            exact lt_of_le_of_lt hb.1 (by simp)

/-- `splitOnP` is never the empty list. -/
theorem splitOnP_ne_nil (sep : Char → Bool) (s : Str) :
    splitOnP sep s ≠ [] := by
  induction s with
  | nil => unfold splitOnP; simp
  | cons c cs ih =>
    unfold splitOnP
    by_cases hc : sep c = true
    · simp [hc]
    · rw [if_neg hc]
      rcases splitOnP sep cs with _ | _ <;> simp

/-- Characters of a split piece are characters of the input that are not
separators. -/
theorem splitOnP_piece_chars (sep : Char → Bool) (s : Str) :
    ∀ p ∈ splitOnP sep s, ∀ c ∈ p, c ∈ s ∧ sep c = false := by
  induction s with
  | nil =>
    intro p hp c hc
    unfold splitOnP at hp
    simp at hp
    subst hp
    simp at hc
  | cons d ds ih =>
    intro p hp c hc
    unfold splitOnP at hp
    by_cases hd : sep d = true
    · rw [if_pos hd] at hp
      rcases List.mem_cons.mp hp with h | h
      · subst h; simp at hc
      · have := ih p h c hc
        exact ⟨List.mem_cons_of_mem _ this.1, this.2⟩
    · rw [if_neg hd] at hp
      rcases hsp : splitOnP sep ds with _ | ⟨p0, ps⟩
      · exact absurd hsp (splitOnP_ne_nil sep ds)
      · rw [hsp] at hp
        rcases List.mem_cons.mp hp with h | h
        · subst h
          rcases List.mem_cons.mp hc with h2 | h2
          · subst h2
            exact ⟨List.mem_cons_self _ _, by simpa using hd⟩
          · have := ih p0 (by rw [hsp]; exact List.mem_cons_self _ _) c h2
            exact ⟨List.mem_cons_of_mem _ this.1, this.2⟩
        · have := ih p (by rw [hsp]; exact List.mem_cons_of_mem _ h) c hc
          exact ⟨List.mem_cons_of_mem _ this.1, this.2⟩

/-! ### Fuel elimination for the search-filter evaluator -/

theorem applyGo_succ (f : ℕ) (l : List Rec) (q : Str) :
    applyGo (f + 1) l q =
      if normQ q = [] then l
      else if (normQ q).any isOrSepC then
        (splitOnP isOrSepC (normQ q)).foldl
          (fun acc part => dedupInto acc (applyGo f l (trimS part))) []
      else if '&' ∈ normQ q then
        (splitOnP (· = '&') (normQ q)).foldl
          (fun acc part => applyGo f acc (trimS part)) l
      else if (normQ q).head? = some '!' then
        l.filter (fun p => decide (¬ p ∈ applyGo f l ((normQ q).drop 1)))
      else l.filter (atomicMatch (normQ q)) := rfl

theorem queryPredGo_succ (f : ℕ) (q : Str) (p : Rec) :
    queryPredGo (f + 1) q p =
      if normQ q = [] then true
      else if (normQ q).any isOrSepC then true
      else if '&' ∈ normQ q then
        (splitOnP (· = '&') (normQ q)).all
          (fun part => queryPredGo f (trimS part) p)
      else if (normQ q).head? = some '!' then
        !(queryPredGo f ((normQ q).drop 1) p)
      else atomicMatch (normQ q) p := rfl

/-- Length bound for a piece of an OR/AND split of the normalized query,
after re-normalization. -/
theorem split_piece_norm_lt {sep : Char → Bool} {q : Str} {part : Str}
    (hpart : part ∈ splitOnP sep (normQ q))
    (hsep : (normQ q).any sep = true) :
    (normQ (trimS part)).length < (normQ q).length := by
  have hb := (splitOnP_piece_bounds sep (normQ q) part hpart).2 hsep
  calc (normQ (trimS part)).length ≤ (trimS part).length := normQ_length_le _
    _ ≤ part.length := trimS_length_le _
    _ < (normQ q).length := hb

theorem list_all_ext {α : Type} {f g : α → Bool} {l : List α}
    (h : ∀ x ∈ l, f x = g x) : l.all f = l.all g := by
  induction l with
  | nil => rfl
  | cons x xs ih =>
    simp only [List.all_cons]
    rw [h x (List.mem_cons_self _ _),
      ih (fun y hy => h y (List.mem_cons_of_mem _ hy))]

theorem applyGo_congr :
    ∀ f1 f2 (l : List Rec) (q : Str), (normQ q).length < f1 →
      (normQ q).length < f2 → applyGo f1 l q = applyGo f2 l q := by
  intro f1
  induction f1 with
  | zero => intro f2 l q h1 _; omega
  | succ n ih =>
    intro f2 l q h1 h2
    rcases f2 with _ | m
    · omega
    rw [applyGo_succ, applyGo_succ]
    by_cases hnil : normQ q = []
    · simp [hnil]
    rw [if_neg hnil, if_neg hnil]
    by_cases hor : (normQ q).any isOrSepC = true
    · rw [if_pos hor, if_pos hor]
      apply List.foldl_ext
      intro acc part hpart
      have hlt := split_piece_norm_lt hpart hor
      rw [ih m l (trimS part) (by omega) (by omega)]
    rw [if_neg hor, if_neg hor]
    by_cases hamp : '&' ∈ normQ q
    · rw [if_pos hamp, if_pos hamp]
      apply List.foldl_ext
      intro acc part hpart
      have hsep : (normQ q).any (· = '&') = true := by
        simp only [List.any_eq_true, decide_eq_true_eq]
        exact ⟨'&', hamp, rfl⟩
      have hlt := split_piece_norm_lt hpart hsep
      rw [ih m acc (trimS part) (by omega) (by omega)]
    rw [if_neg hamp, if_neg hamp]
    by_cases hbang : (normQ q).head? = some '!'
    · rw [if_pos hbang, if_pos hbang]
      have hlen : (normQ ((normQ q).drop 1)).length < (normQ q).length := by
        have h3 : (normQ q).length ≠ 0 := by
          intro h0
          rw [List.length_eq_zero.mp h0] at hbang
          simp at hbang
        calc (normQ ((normQ q).drop 1)).length ≤ ((normQ q).drop 1).length :=
              normQ_length_le _
          _ = (normQ q).length - 1 := by simp
          _ < (normQ q).length := by omega
      rw [ih m l ((normQ q).drop 1) (by omega) (by omega)]
    rw [if_neg hbang, if_neg hbang]

theorem queryPredGo_congr :
    ∀ f1 f2 (q : Str) (p : Rec), (normQ q).length < f1 →
      (normQ q).length < f2 → queryPredGo f1 q p = queryPredGo f2 q p := by
  intro f1
  induction f1 with
  | zero => intro f2 q p h1 _; omega
  | succ n ih =>
    intro f2 q p h1 h2
    rcases f2 with _ | m
    · omega
    rw [queryPredGo_succ, queryPredGo_succ]
    by_cases hnil : normQ q = []
    · simp [hnil]
    rw [if_neg hnil, if_neg hnil]
    by_cases hor : (normQ q).any isOrSepC = true
    · rw [if_pos hor, if_pos hor]
    rw [if_neg hor, if_neg hor]
    by_cases hamp : '&' ∈ normQ q
    · rw [if_pos hamp, if_pos hamp]
      apply list_all_ext
      intro part hpart
      have hsep : (normQ q).any (· = '&') = true := by
        simp only [List.any_eq_true, decide_eq_true_eq]
        exact ⟨'&', hamp, rfl⟩
      have hlt := split_piece_norm_lt hpart hsep
      rw [ih m (trimS part) p (by omega) (by omega)]
    rw [if_neg hamp, if_neg hamp]
    by_cases hbang : (normQ q).head? = some '!'
    · rw [if_pos hbang, if_pos hbang]
      have hlen : (normQ ((normQ q).drop 1)).length < (normQ q).length := by
        have h3 : (normQ q).length ≠ 0 := by
          intro h0
          rw [List.length_eq_zero.mp h0] at hbang
          simp at hbang
        calc (normQ ((normQ q).drop 1)).length ≤ ((normQ q).drop 1).length :=
              normQ_length_le _
          _ = (normQ q).length - 1 := by simp
          _ < (normQ q).length := by omega
      rw [ih m ((normQ q).drop 1) p (by omega) (by omega)]
    rw [if_neg hbang, if_neg hbang]

/-- `apply_search_filter` satisfies its recursive equations with itself in
the recursive positions. -/
theorem apply_search_filter_unfold (l : List Rec) (q : Str) :
    apply_search_filter l q =
      if normQ q = [] then l
      else if (normQ q).any isOrSepC then
        (splitOnP isOrSepC (normQ q)).foldl
          (fun acc part => dedupInto acc (apply_search_filter l (trimS part))) []
      else if '&' ∈ normQ q then
        (splitOnP (· = '&') (normQ q)).foldl
          (fun acc part => apply_search_filter acc (trimS part)) l
      else if (normQ q).head? = some '!' then
        l.filter (fun p =>
          decide (¬ p ∈ apply_search_filter l ((normQ q).drop 1)))
      else l.filter (atomicMatch (normQ q)) := by
  unfold apply_search_filter
  rw [applyGo_succ]
  by_cases hnil : normQ q = []
  · simp [hnil]
  rw [if_neg hnil, if_neg hnil]
  by_cases hor : (normQ q).any isOrSepC = true
  · rw [if_pos hor, if_pos hor]
    apply List.foldl_ext
    intro acc part hpart
    have hlt := split_piece_norm_lt hpart hor
    rw [applyGo_congr ((normQ q).length) ((normQ (trimS part)).length + 1) l
      (trimS part) (by omega) (by omega)]
  rw [if_neg hor, if_neg hor]
  by_cases hamp : '&' ∈ normQ q
  · rw [if_pos hamp, if_pos hamp]
    apply List.foldl_ext
    intro acc part hpart
    have hsep : (normQ q).any (· = '&') = true := by
      simp only [List.any_eq_true, decide_eq_true_eq]
      exact ⟨'&', hamp, rfl⟩
    have hlt := split_piece_norm_lt hpart hsep
    rw [applyGo_congr ((normQ q).length) ((normQ (trimS part)).length + 1) acc
      (trimS part) (by omega) (by omega)]
  rw [if_neg hamp, if_neg hamp]
  by_cases hbang : (normQ q).head? = some '!'
  · rw [if_pos hbang, if_pos hbang]
    have h3 : (normQ q).length ≠ 0 := by
      intro h0
      rw [List.length_eq_zero.mp h0] at hbang
      simp at hbang
    have hlen : (normQ ((normQ q).drop 1)).length < (normQ q).length := by
      calc (normQ ((normQ q).drop 1)).length ≤ ((normQ q).drop 1).length :=
            normQ_length_le _
        _ = (normQ q).length - 1 := by simp
        _ < (normQ q).length := by omega
    rw [applyGo_congr ((normQ q).length) ((normQ ((normQ q).drop 1)).length + 1)
      l ((normQ q).drop 1) (by omega) (by omega)]
  rw [if_neg hbang, if_neg hbang]

/-- The evaluator depends on its query only through normalization. -/
theorem apply_search_filter_norm_congr (l : List Rec) {q1 q2 : Str}
    (h : normQ q1 = normQ q2) :
    apply_search_filter l q1 = apply_search_filter l q2 := by
  unfold apply_search_filter
  rw [applyGo_congr ((normQ q1).length + 1) ((normQ q2).length + 1) l q1
    (by omega) (by rw [h]; omega)]
  rw [applyGo_succ, applyGo_succ, h]

/-! ### Operator-free queries denote record-wise predicates -/

theorem foldl_filter {α : Type} (g : Str → α → Bool) :
    ∀ (parts : List Str) (l : List α),
      parts.foldl (fun acc part => acc.filter (g part)) l =
        l.filter (fun x => parts.all (fun part => g part x)) := by
  intro parts
  induction parts with
  | nil =>
    intro l
    simp
  | cons p ps ih =>
    intro l
    simp only [List.foldl_cons, ih, List.filter_filter]
    apply List.filter_congr
    intro x _
    simp [List.all_cons, Bool.and_comm]

theorem normQ_noSep_of_subset {src : Str} (hsrc : src.any isOrSepC = false)
    {x : Str} (hx : ∀ c ∈ x, c ∈ src) :
    (normQ x).any isOrSepC = false := by
  rw [List.any_eq_false]
  intro c hc
  obtain ⟨d, hd, hld⟩ := mem_normQ hc
  rw [← hld, isOrSepC_lowerC]
  have := List.any_eq_false.mp hsrc d (hx d hd)
  simpa using this

theorem applyGo_filter :
    ∀ f (l : List Rec) (q : Str), (normQ q).length < f →
      (normQ q).any isOrSepC = false →
      applyGo f l q = l.filter (queryPredGo f q) := by
  intro f
  induction f with
  | zero => intro l q h1 _; omega
  | succ n ih =>
    intro l q h1 hns
    rw [applyGo_succ]
    by_cases hnil : normQ q = []
    · rw [if_pos hnil]
      have : ∀ p ∈ l, queryPredGo (n + 1) q p = true := by
        intro p _
        rw [queryPredGo_succ, if_pos hnil]
      exact (List.filter_eq_self.mpr this).symm
    rw [if_neg hnil]
    have hor : ¬ ((normQ q).any isOrSepC = true) := by
      rw [hns]; simp
    rw [if_neg hor]
    by_cases hamp : '&' ∈ normQ q
    · rw [if_pos hamp]
      have hstep : ∀ (acc : List Rec) part,
          part ∈ splitOnP (· = '&') (normQ q) →
          applyGo n acc (trimS part) =
            acc.filter (queryPredGo n (trimS part)) := by
        intro acc part hpart
        have hb := (splitOnP_piece_bounds (· = '&') (normQ q) part hpart).2
          (by simp only [List.any_eq_true, decide_eq_true_eq]
              exact ⟨'&', hamp, rfl⟩)
        have hlen : (normQ (trimS part)).length < n := by
          have := le_trans (normQ_length_le (trimS part)) (trimS_length_le part)
          omega
        have hchars : ∀ c ∈ trimS part, c ∈ normQ q := by
          intro c hc
          exact (splitOnP_piece_chars (· = '&') (normQ q) part hpart c
            (mem_of_mem_trimS hc)).1
        exact ih acc (trimS part) hlen (normQ_noSep_of_subset hns hchars)
      rw [List.foldl_ext _ _ l
        (fun acc part hpart => hstep acc part hpart)]
      rw [foldl_filter (fun part x => queryPredGo n (trimS part) x)]
      apply List.filter_congr
      intro x _
      rw [queryPredGo_succ, if_neg hnil, if_neg hor, if_pos hamp]
    rw [if_neg hamp]
    by_cases hbang : (normQ q).head? = some '!'
    · rw [if_pos hbang]
      have h3 : (normQ q).length ≠ 0 := by
        intro h0
        rw [List.length_eq_zero.mp h0] at hbang
        simp at hbang
      have hlen : (normQ ((normQ q).drop 1)).length < n := by
        have := normQ_length_le ((normQ q).drop 1)
        have h4 : ((normQ q).drop 1).length = (normQ q).length - 1 := by simp
        omega
      have hchars : ∀ c ∈ (normQ q).drop 1, c ∈ normQ q := by
        intro c hc
        exact (List.drop_subset 1 (normQ q)) hc
      rw [ih l ((normQ q).drop 1) hlen (normQ_noSep_of_subset hns hchars)]
      have hpt : ∀ p ∈ l,
          (decide (¬ p ∈ l.filter (queryPredGo n ((normQ q).drop 1)))) =
            queryPredGo (n + 1) q p := by
        intro p hp
        rw [queryPredGo_succ, if_neg hnil, if_neg hor, if_neg hamp,
          if_pos hbang]
        by_cases hq : queryPredGo n ((normQ q).drop 1) p = true
        · have hmem : p ∈ l.filter (queryPredGo n ((normQ q).drop 1)) :=
            List.mem_filter.mpr ⟨hp, hq⟩
          rw [decide_eq_false (not_not_intro hmem), hq]
          rfl
        · simp only [Bool.not_eq_true] at hq
          have hmem : ¬ p ∈ l.filter (queryPredGo n ((normQ q).drop 1)) := by
            intro hc
            have := (List.mem_filter.mp hc).2
            rw [hq] at this
            exact Bool.false_ne_true this
          rw [decide_eq_true hmem, hq]
          rfl
      exact List.filter_congr hpt
    rw [if_neg hbang]
    apply List.filter_congr
    intro x _
    rw [queryPredGo_succ, if_neg hnil, if_neg hor, if_neg hamp, if_neg hbang]

/-- An operator-free (no OR separator) query is evaluated record-wise. -/
theorem apply_search_filter_eq_filter {q : Str}
    (h : (normQ q).any isOrSepC = false) (l : List Rec) :
    apply_search_filter l q = l.filter (queryPredC q) :=
  applyGo_filter ((normQ q).length + 1) l q (by omega) h

/-! ### The OR branch: union-with-dedup machinery -/

theorem dedupInto_nil (acc : List Rec) : dedupInto acc [] = acc := rfl

theorem dedupInto_cons (acc : List Rec) (y : Rec) (ys : List Rec) :
    dedupInto acc (y :: ys) =
      if y ∈ acc then dedupInto acc ys else dedupInto (acc ++ [y]) ys := rfl

theorem mem_dedupInto (x : Rec) :
    ∀ (xs acc : List Rec), x ∈ dedupInto acc xs ↔ x ∈ acc ∨ x ∈ xs := by
  intro xs
  induction xs with
  | nil => intro acc; rw [dedupInto_nil]; simp
  | cons y ys ih =>
    intro acc
    rw [dedupInto_cons]
    by_cases hy : y ∈ acc
    · rw [if_pos hy, ih]
      simp only [List.mem_cons]
      constructor
      · rintro (h | h)
        · exact Or.inl h
        · exact Or.inr (Or.inr h)
      · rintro (h | h | h)
        · exact Or.inl h
        · subst h; exact Or.inl hy
        · exact Or.inr h
    · rw [if_neg hy, ih]
      simp only [List.mem_append, List.mem_singleton, List.mem_cons]
      tauto

theorem nodup_dedupInto :
    ∀ (xs acc : List Rec), acc.Nodup → (dedupInto acc xs).Nodup := by
  intro xs
  induction xs with
  | nil => intro acc h; exact h
  | cons y ys ih =>
    intro acc h
    rw [dedupInto_cons]
    by_cases hy : y ∈ acc
    · rw [if_pos hy]; exact ih acc h
    · rw [if_neg hy]
      apply ih
      rw [List.nodup_append]
      exact ⟨h, List.nodup_singleton y, by simpa using hy⟩

theorem dedupInto_append (acc : List Rec) (xs ys : List Rec) :
    dedupInto acc (xs ++ ys) = dedupInto (dedupInto acc xs) ys := by
  induction xs generalizing acc with
  | nil => rw [List.nil_append, dedupInto_nil]
  | cons z zs ih =>
    rw [List.cons_append, dedupInto_cons, dedupInto_cons]
    by_cases hz : z ∈ acc
    · rw [if_pos hz, if_pos hz, ih]
    · rw [if_neg hz, if_neg hz, ih]

theorem dedupInto_of_subset {acc xs : List Rec} (h : ∀ x ∈ xs, x ∈ acc) :
    dedupInto acc xs = acc := by
  induction xs with
  | nil => rfl
  | cons y ys ih =>
    rw [dedupInto_cons, if_pos (h y (List.mem_cons_self _ _))]
    exact ih (fun x hx => h x (List.mem_cons_of_mem _ hx))

theorem dedupInto_of_disjoint {xs : List Rec} (hnd : xs.Nodup) :
    ∀ {acc : List Rec}, (∀ x ∈ xs, x ∉ acc) → dedupInto acc xs = acc ++ xs := by
  induction xs with
  | nil => intro acc _; simp [dedupInto_nil]
  | cons y ys ih =>
    intro acc hdis
    rw [dedupInto_cons, if_neg (hdis y (List.mem_cons_self _ _))]
    rw [ih (List.Nodup.of_cons hnd)]
    · simp
    · intro x hx
      simp only [List.mem_append, List.mem_singleton]
      rintro (h | h)
      · exact hdis x (List.mem_cons_of_mem _ hx) h
      · subst h
        exact (List.nodup_cons.mp hnd).1 hx

/-- `dedupInto` into a split accumulator `a ++ b`: elements of `a` are
filtered away and the rest accumulates onto `b`. -/
theorem dedupInto_split (a : List Rec) :
    ∀ (xs b : List Rec),
      dedupInto (a ++ b) xs =
        a ++ dedupInto b (xs.filter (fun x => decide (¬ x ∈ a))) := by
  intro xs
  induction xs with
  | nil => intro b; simp [dedupInto_nil]
  | cons y ys ih =>
    intro b
    rw [dedupInto_cons]
    by_cases hya : y ∈ a
    · rw [if_pos (List.mem_append.mpr (Or.inl hya)),
        List.filter_cons_of_neg (by simpa using hya), ih]
    · rw [List.filter_cons_of_pos (by simpa using hya), dedupInto_cons]
      by_cases hyb : y ∈ b
      · rw [if_pos (List.mem_append.mpr (Or.inr hyb)), if_pos hyb, ih]
      · rw [if_neg (by simp [hya, hyb]), if_neg hyb, List.append_assoc, ih]

/-- `dedupInto` decomposes into its accumulator followed by the deduplicated
new elements. -/
theorem dedupInto_decomp (acc xs : List Rec) :
    dedupInto acc xs =
      acc ++ dedupInto [] (xs.filter (fun x => decide (¬ x ∈ acc))) := by
  have := dedupInto_split acc xs []
  simpa using this

theorem nodup_dedupNil (xs : List Rec) : (dedupInto [] xs).Nodup :=
  nodup_dedupInto xs [] List.nodup_nil

theorem mem_dedupNil {x : Rec} {xs : List Rec} :
    x ∈ dedupInto [] xs ↔ x ∈ xs := by
  rw [mem_dedupInto]
  simp

theorem dedupNil_of_nodup {xs : List Rec} (h : xs.Nodup) :
    dedupInto [] xs = xs := by
  have := @dedupInto_of_disjoint _ h [] (by simp)
  simpa using this

theorem mem_orFoldF {α : Type} (G : α → List Rec) (x : Rec) :
    ∀ (parts : List α) (init : List Rec),
      (x ∈ parts.foldl (fun acc part => dedupInto acc (G part)) init) ↔
        (x ∈ init ∨ ∃ part ∈ parts, x ∈ G part) := by
  intro parts
  induction parts with
  | nil => intro init; simp
  | cons p ps ih =>
    intro init
    rw [List.foldl_cons, ih, mem_dedupInto]
    simp only [List.mem_cons]
    constructor
    · rintro ((h | h) | ⟨part, hpart, hx⟩)
      · exact Or.inl h
      · exact Or.inr ⟨p, Or.inl rfl, h⟩
      · exact Or.inr ⟨part, Or.inr hpart, hx⟩
    · rintro (h | ⟨part, (hpart | hpart), hx⟩)
      · exact Or.inl (Or.inl h)
      · subst hpart; exact Or.inl (Or.inr hx)
      · exact Or.inr ⟨part, hpart, hx⟩

theorem nodup_orFoldF {α : Type} (G : α → List Rec) :
    ∀ (parts : List α) (init : List Rec), init.Nodup →
      (parts.foldl (fun acc part => dedupInto acc (G part)) init).Nodup := by
  intro parts
  induction parts with
  | nil => intro init h; exact h
  | cons p ps ih =>
    intro init h
    rw [List.foldl_cons]
    exact ih _ (nodup_dedupInto _ _ h)

/-- Re-running the OR accumulation of record-wise filters on its own output
reproduces that output. -/
theorem orFold_refilter (L : List Rec) (ps : List (Rec → Bool)) :
    ps.foldl (fun acc π => dedupInto acc
        ((ps.foldl (fun a π2 => dedupInto a (L.filter π2)) []).filter π)) []
      = ps.foldl (fun acc π => dedupInto acc (L.filter π)) [] := by
  induction ps using List.reverseRecOn with
  | nil => rfl
  | append_singleton ps π ih =>
    set R : List Rec := ps.foldl (fun a π2 => dedupInto a (L.filter π2)) []
      with hR
    have hR' : (ps ++ [π]).foldl (fun a π2 => dedupInto a (L.filter π2)) []
        = dedupInto R (L.filter π) := by
      rw [List.foldl_append]
      simp
    set Δ : List Rec :=
      dedupInto [] ((L.filter π).filter (fun x => decide (¬ x ∈ R))) with hΔ
    have hsplit : dedupInto R (L.filter π) = R ++ Δ := dedupInto_decomp _ _
    have hΔmem : ∀ x ∈ Δ, (x ∈ L ∧ π x = true) ∧ ¬ x ∈ R := by
      intro x hx
      rw [hΔ, mem_dedupNil, List.mem_filter] at hx
      refine ⟨List.mem_filter.mp hx.1, by simpa using hx.2⟩
    have hΔnodup : Δ.Nodup := nodup_dedupNil _
    have hRmem : ∀ π2 ∈ ps, ∀ x ∈ L, π2 x = true → x ∈ R := by
      intro π2 hπ2 x hx hπx
      rw [hR, mem_orFoldF]
      exact Or.inr ⟨π2, hπ2, List.mem_filter.mpr ⟨hx, hπx⟩⟩
    have hΔfilt : ∀ π2 ∈ ps, Δ.filter π2 = [] := by
      intro π2 hπ2
      rw [List.filter_eq_nil_iff]
      intro x hx hc
      have h1 := hΔmem x hx
      exact h1.2 (hRmem π2 hπ2 x h1.1.1 hc)
    rw [hR', hsplit, List.foldl_append]
    have hinner : ps.foldl (fun acc π2 => dedupInto acc
        ((R ++ Δ).filter π2)) [] = R := by
      have hstep : ∀ (acc : List Rec), ∀ π2 ∈ ps,
          dedupInto acc ((R ++ Δ).filter π2) = dedupInto acc (R.filter π2) := by
        intro acc π2 hπ2
        rw [List.filter_append, hΔfilt π2 hπ2, List.append_nil]
      rw [List.foldl_ext _ _ [] hstep]
      exact ih
    rw [hinner]
    simp only [List.foldl_cons, List.foldl_nil]
    rw [List.filter_append]
    have hΔself : Δ.filter π = Δ := by
      rw [List.filter_eq_self]
      intro x hx
      exact (hΔmem x hx).1.2
    rw [hΔself, dedupInto_append]
    rw [dedupInto_of_subset (fun x hx => (List.mem_filter.mp hx).1)]
    exact dedupInto_of_disjoint hΔnodup (fun x hx => (hΔmem x hx).2)

theorem piece_noSep {q : Str} {part : Str}
    (hp : part ∈ splitOnP isOrSepC (normQ q)) :
    (normQ (trimS part)).any isOrSepC = false := by
  have hchars := splitOnP_piece_chars isOrSepC (normQ q) part hp
  apply @normQ_noSep_of_subset part
  · rw [List.any_eq_false]
    intro c hc
    simpa using (hchars c hc).2
  · intro c hc
    exact mem_of_mem_trimS hc

/-- With an OR separator present, the evaluator is the deduplicating union
of the record-wise filters denoted by the pieces. -/
theorem apply_search_filter_or {q : Str}
    (hsep : (normQ q).any isOrSepC = true) (l : List Rec) :
    apply_search_filter l q =
      (splitOnP isOrSepC (normQ q)).foldl
        (fun acc part =>
          dedupInto acc (l.filter (queryPredC (trimS part)))) [] := by
  have hnil : ¬ (normQ q = []) := by
    intro h
    rw [h] at hsep
    simp at hsep
  rw [apply_search_filter_unfold, if_neg hnil, if_pos hsep]
  apply List.foldl_ext
  intro acc part hp
  rw [apply_search_filter_eq_filter (piece_noSep hp)]

/-- C10: evaluating any query (including OR/AND/NOT operator queries) on its
own output reproduces that output. -/
theorem C10_filter_idempotent (l : List Rec) (q : Str) :
    apply_search_filter (apply_search_filter l q) q =
      apply_search_filter l q := by
  by_cases hsep : (normQ q).any isOrSepC = true
  · rw [apply_search_filter_or hsep l,
      apply_search_filter_or hsep
        ((splitOnP isOrSepC (normQ q)).foldl
          (fun acc part =>
            dedupInto acc (l.filter (queryPredC (trimS part)))) [])]
    have h := orFold_refilter l
      ((splitOnP isOrSepC (normQ q)).map
        (fun part => queryPredC (trimS part)))
    simp only [List.foldl_map] at h
    exact h
  · have hns : (normQ q).any isOrSepC = false := by
      simpa using hsep
    rw [apply_search_filter_eq_filter hns l,
      apply_search_filter_eq_filter hns (l.filter (queryPredC q)),
      List.filter_filter]
    apply List.filter_congr
    intro x _
    exact Bool.and_self _

/-! ### C8: subset and order preservation -/

theorem applyGo_subset :
    ∀ f (l : List Rec) (q : Str) (x : Rec), x ∈ applyGo f l q → x ∈ l := by
  intro f
  induction f with
  | zero => intro l q x hx; exact hx
  | succ n ih =>
    intro l q x hx
    rw [applyGo_succ] at hx
    by_cases hnil : normQ q = []
    · rwa [if_pos hnil] at hx
    rw [if_neg hnil] at hx
    by_cases hor : (normQ q).any isOrSepC = true
    · rw [if_pos hor] at hx
      rcases (mem_orFoldF (fun part => applyGo n l (trimS part)) x _ _).mp hx
        with h | ⟨part, _, hx2⟩
      · simp at h
      · exact ih l (trimS part) x hx2
    rw [if_neg hor] at hx
    by_cases hamp : '&' ∈ normQ q
    · rw [if_pos hamp] at hx
      have haux : ∀ (parts : List Str) (acc : List Rec),
          x ∈ parts.foldl (fun a part => applyGo n a (trimS part)) acc →
            x ∈ acc := by
        intro parts
        induction parts with
        | nil => intro acc h; exact h
        | cons p0 ps ihp =>
          intro acc h
          rw [List.foldl_cons] at h
          exact ih acc (trimS p0) x (ihp _ h)
      exact haux _ l hx
    rw [if_neg hamp] at hx
    by_cases hbang : (normQ q).head? = some '!'
    · rw [if_pos hbang] at hx
      exact (List.mem_filter.mp hx).1
    · rw [if_neg hbang] at hx
      exact (List.mem_filter.mp hx).1

/-- C8 (amended): the filter always returns records of its input, and when
the normalized query contains no OR separator the output is an
order-preserving sublist of the input; an OR query instead emits records in
first-seen order across the OR branches, which can differ from input order
(see the counterexample). -/
theorem C8_filter_subset_order (l : List Rec) (q : Str) :
    (∀ x ∈ apply_search_filter l q, x ∈ l) ∧
      ((normQ q).any isOrSepC = false →
        (apply_search_filter l q).Sublist l) := by
  constructor
  · intro x hx
    exact applyGo_subset _ l q x hx
  · intro hns
    rw [apply_search_filter_eq_filter hns]
    exact List.filter_sublist l

/-- C8 witness: a concrete operator-free query returns a sublist. -/
theorem C8_filter_subset_order_witness :
    ((normQ (sc "alpha")).any isOrSepC = false) ∧
      ((apply_search_filter [recBeta, recAlpha] (sc "alpha")).Sublist
        [recBeta, recAlpha]) :=
  ⟨by decide, (C8_filter_subset_order [recBeta, recAlpha] (sc "alpha")).2
    (by decide)⟩

/-- C8 counterexample: the OR query `"alpha,beta"` applied to
`[beta, alpha]` returns `[alpha, beta]`, which does not preserve the input
order. -/
theorem C8_counterexample :
    ¬ ((apply_search_filter [recBeta, recAlpha] (sc "alpha,beta")).Sublist
      [recBeta, recAlpha]) := by
  intro h
  have heval : apply_search_filter [recBeta, recAlpha] (sc "alpha,beta") =
      [recAlpha, recBeta] := by decide
  rw [heval] at h
  have heq := h.eq_of_length (by decide)
  have hab : recAlpha = recBeta := by
    injection heq with h1 _
  exact absurd hab (by decide)

/-! ### C9: the NOT complement law -/

theorem dropWhile_map_comm {f : Char → Char} {p : Char → Bool}
    (hf : ∀ c, p (f c) = p c) :
    ∀ l : Str, (l.dropWhile p).map f = (l.map f).dropWhile p := by
  intro l
  induction l with
  | nil => rfl
  | cons c cs ih =>
    rw [List.map_cons, List.dropWhile_cons, List.dropWhile_cons, hf c]
    by_cases hc : p c = true
    · rw [if_pos hc, if_pos hc, ih]
    · rw [if_neg hc, if_neg hc, List.map_cons]

theorem dropWhile_idem (p : Char → Bool) :
    ∀ l : Str, (l.dropWhile p).dropWhile p = l.dropWhile p := by
  intro l
  induction l with
  | nil => rfl
  | cons c cs ih =>
    rw [List.dropWhile_cons]
    by_cases hc : p c = true
    · rw [if_pos hc, ih]
    · rw [if_neg hc, List.dropWhile_cons, if_neg hc]

theorem lowerS_trimRight_comm (s : Str) :
    lowerS (trimRight s) = trimRight (lowerS s) := by
  unfold trimRight trimLeft lowerS
  rw [List.map_reverse]
  congr 1
  rw [← List.map_reverse]
  exact dropWhile_map_comm isPySpace_lowerC s.reverse

theorem trimRight_idem (s : Str) : trimRight (trimRight s) = trimRight s := by
  unfold trimRight trimLeft
  rw [List.reverse_reverse]
  rw [dropWhile_idem]

theorem trimRight_cons_of_not_space {c : Char} (hc : isPySpace c = false)
    (xs : Str) : trimRight (c :: xs) = c :: trimRight xs := by
  unfold trimRight trimLeft
  rw [List.reverse_cons, List.dropWhile_append]
  by_cases he : (xs.reverse.dropWhile isPySpace).isEmpty = true
  · rw [if_pos he]
    rw [List.dropWhile_cons]
    rw [hc]
    simp only [Bool.false_eq_true, if_false, List.dropWhile_nil]
    have : xs.reverse.dropWhile isPySpace = [] := by
      simpa [List.isEmpty_iff] using he
    rw [this]
    rfl
  · rw [if_neg he]
    rw [List.reverse_append]
    simp

theorem trimLeft_cons_of_not_space {c : Char} (hc : isPySpace c = false)
    (xs : Str) : trimLeft (c :: xs) = c :: xs := by
  unfold trimLeft
  rw [List.dropWhile_cons, hc]
  simp

theorem normQ_bang (P : Str) :
    normQ ('!' :: P) = '!' :: trimRight (lowerS P) := by
  unfold normQ
  have h1 : lowerS ('!' :: P) = '!' :: lowerS P := by
    unfold lowerS
    rw [List.map_cons]
    congr 1
  unfold trimS
  rw [h1, trimRight_cons_of_not_space (by decide),
    trimLeft_cons_of_not_space (by decide)]

theorem normQ_trimRight_lower (P : Str) :
    normQ (trimRight (lowerS P)) = normQ P := by
  unfold normQ trimS
  rw [lowerS_trimRight_comm, lowerS_idem, trimRight_idem]

/-- C9 (amended): for predicate text without `,`, `;`, `&`, the filter on
`"!P"` is exactly the input minus the records matching `P`, in input order.
With an OR separator or `&` inside `P` the `!` is instead parsed inside the
pieces (see the counterexample). -/
theorem C9_filter_complement (l : List Rec) (P : Str)
    (h : P.any (fun c => isOrSepC c || c = '&') = false) :
    apply_search_filter l ('!' :: P) =
      l.filter (fun x => decide (¬ x ∈ apply_search_filter l P)) := by
  have hchars : ∀ c ∈ trimRight (lowerS P),
      isOrSepC c = false ∧ (c = '&' → False) := by
    intro c hc
    have hc2 : c ∈ lowerS P := (trimRight_sublist (lowerS P)).mem hc
    obtain ⟨d, hd, hld⟩ := mem_lowerS.mp hc2
    have hdp := List.any_eq_false.mp h d hd
    simp only [Bool.or_eq_true, decide_eq_true_eq, not_or] at hdp
    constructor
    · rw [← hld, isOrSepC_lowerC]
      simpa using hdp.1
    · intro hce
      rw [← hld] at hce
      exact hdp.2 ((amp_lowerC d).mp hce)
  have hq : normQ ('!' :: P) = '!' :: trimRight (lowerS P) := normQ_bang P
  have hnil : ¬ (normQ ('!' :: P) = []) := by rw [hq]; simp
  have hor : ¬ ((normQ ('!' :: P)).any isOrSepC = true) := by
    rw [hq]
    simp only [List.any_cons, Bool.or_eq_true, not_or]
    constructor
    · decide
    · intro hc
      obtain ⟨c, hcm, hcs⟩ := List.any_eq_true.mp hc
      have := (hchars c hcm).1
      rw [this] at hcs
      exact Bool.false_ne_true hcs
  have hamp : ¬ ('&' ∈ normQ ('!' :: P)) := by
    rw [hq]
    intro hc
    rcases List.mem_cons.mp hc with hc | hc
    · exact absurd hc.symm (by decide)
    · exact (hchars '&' hc).2 rfl
  have hbang : (normQ ('!' :: P)).head? = some '!' := by rw [hq]; rfl
  rw [apply_search_filter_unfold, if_neg hnil, if_neg hor, if_neg hamp,
    if_pos hbang]
  have hdrop : (normQ ('!' :: P)).drop 1 = trimRight (lowerS P) := by
    rw [hq]; rfl
  rw [hdrop]
  have hsub : apply_search_filter l (trimRight (lowerS P)) =
      apply_search_filter l P :=
    apply_search_filter_norm_congr l (normQ_trimRight_lower P)
  rw [hsub]

/-- C9 witness: the complement law at a concrete list and predicate. -/
theorem C9_filter_complement_witness :
    ((sc "alpha").any (fun c => isOrSepC c || c = '&') = false) ∧
      apply_search_filter [recAlpha, recBeta] ('!' :: sc "alpha") =
        [recAlpha, recBeta].filter
          (fun x =>
            decide (¬ x ∈ apply_search_filter [recAlpha, recBeta]
              (sc "alpha"))) :=
  ⟨by decide, C9_filter_complement [recAlpha, recBeta] (sc "alpha")
    (by decide)⟩

/-- C9 counterexample: with `P = "alpha,beta"` the query `"!P"` is split at
the comma, so the result is not the complement of `filter(L, P)`. -/
theorem C9_counterexample :
    apply_search_filter [recAlpha, recBeta] ('!' :: sc "alpha,beta") ≠
      [recAlpha, recBeta].filter
        (fun x =>
          decide (¬ x ∈ apply_search_filter [recAlpha, recBeta]
            (sc "alpha,beta"))) := by
  decide

/-! ### C1: degraded-dependency behaviour of `compute_top10_ivs` -/

/-- C1 counterexample: with positive base stats and an empty multiplier
table, `compute_top10_ivs` raises (the `RuntimeError` of `get_cpm`) instead
of returning an empty list. -/
theorem C1_counterexample :
    compute_top10_ivs [] 200 150 180 1500 = .error () := by
  rfl

/-- C1 (amended): a nonpositive base stat yields an empty list without
consulting the multiplier table (even an empty one); but when all base stats
are positive and the table is empty, the function raises -- the
empty/unloadable-table condition does not degrade to an empty list. -/
theorem C1_unavailable_behaviour (t : Cpm) (base_atk base_def base_sta cp_cap : ℤ)
    (h : (base_atk ≤ 0 ∨ base_def ≤ 0 ∨ base_sta ≤ 0) ∨ t = []) :
    compute_top10_ivs t base_atk base_def base_sta cp_cap =
      if base_atk ≤ 0 ∨ base_def ≤ 0 ∨ base_sta ≤ 0 then .ok []
      else .error () := by
  unfold compute_top10_ivs
  by_cases hb : base_atk ≤ 0 ∨ base_def ≤ 0 ∨ base_sta ≤ 0
  · rw [if_pos hb, if_pos hb]
  · rw [if_neg hb, if_neg hb]
    rcases h with h | h
    · exact absurd h hb
    · unfold get_cpm_sq
      rw [if_pos h]

/-- C1 witness: a nonpositive base stat with an empty table returns `ok []`. -/
theorem C1_unavailable_behaviour_witness :
    compute_top10_ivs [] 0 150 180 1500 = .ok [] := by
  have h := C1_unavailable_behaviour [] 0 150 180 1500
    (Or.inl (Or.inl (by norm_num)))
  simpa using h

/-! ### C3/C4: the level scan and the top-10 ordering -/

theorem mem_PVP_LEVELS {hl : ℕ} : hl ∈ PVP_LEVELS ↔ 2 ≤ hl ∧ hl ≤ 102 := by
  unfold PVP_LEVELS
  simp only [List.mem_map, List.mem_range]
  constructor
  · rintro ⟨i, hi, rfl⟩
    omega
  · rintro ⟨h2, h102⟩
    exact ⟨hl - 2, by omega, by omega⟩

theorem usable_cpmGet_pos {t : Cpm} (ht : usableCpm t = true) {k : ℕ}
    (h1 : 1 ≤ k) (h2 : k ≤ 51) : 0 < cpmGet t k := by
  unfold usableCpm at ht
  rw [Bool.and_eq_true] at ht
  have h := ht.2
  rw [List.all_eq_true] at h
  have := h (k - 1) (by rw [List.mem_range]; omega)
  have h3 : k - 1 + 1 = k := by omega
  rw [h3] at this
  simpa using this

theorem usable_cpm_sq_pos {t : Cpm} (ht : usableCpm t = true) {hl : ℕ}
    (h : hl ∈ PVP_LEVELS) : 0 < get_cpm_sq0 t hl := by
  obtain ⟨h2, h102⟩ := mem_PVP_LEVELS.mp h
  unfold get_cpm_sq0
  by_cases he : hl % 2 = 0
  · rw [if_pos he]
    have hp := @usable_cpmGet_pos _ ht (hl / 2) (by omega) (by omega)
    positivity
  · rw [if_neg he]
    have ha := @usable_cpmGet_pos _ ht (hl / 2) (by omega) (by omega)
    have hb := @usable_cpmGet_pos _ ht (hl / 2 + 1) (by omega) (by omega)
    rw [if_neg (by
      simp only [Bool.or_eq_true, decide_eq_true_eq, not_or]
      exact ⟨ne_of_gt ha, ne_of_gt hb⟩)]
    positivity

theorem find?_desc {p : ℕ → Bool} :
    ∀ {l : List ℕ}, List.Pairwise (· > ·) l → ∀ {a : ℕ},
      l.find? p = some a → ∀ b ∈ l, p b = true → b ≤ a := by
  intro l
  induction l with
  | nil => intro _ a h; simp at h
  | cons x xs ih =>
    intro hpw a hf b hb hpb
    by_cases hx : p x = true
    · rw [List.find?_cons_of_pos _ hx] at hf
      injection hf with hf
      subst hf
      rcases List.mem_cons.mp hb with h | h
      · omega
      · have := (List.pairwise_cons.mp hpw).1 b h
        omega
    · rw [List.find?_cons_of_neg _ hx] at hf
      rcases List.mem_cons.mp hb with h | h
      · subst h; exact absurd hpb hx
      · exact ih (List.pairwise_cons.mp hpw).2 hf b h hpb

theorem revLevels_desc : List.Pairwise (· > ·) revLevels := by decide

theorem mem_revLevels {hl : ℕ} : hl ∈ revLevels ↔ hl ∈ PVP_LEVELS := by
  unfold revLevels
  exact List.mem_reverse

/-- What a successful level search guarantees: the level is on the ladder,
its CP fits under the cap, and (for a usable table) it is the highest ladder
level whose CP fits. -/
theorem findLevel_spec {t : Cpm} {base_atk base_def base_sta cap : ℤ}
    {m : ℚ} {ia idf isa : ℕ} {hl : ℕ}
    (ht : usableCpm t = true) (hm : m = get_cpm_sq0 t 102)
    (h : findLevel t base_atk base_def base_sta cap m ia idf isa = some hl) :
    hl ∈ PVP_LEVELS ∧
      cpAtLevel t base_atk base_def base_sta ia idf isa hl ≤ cap ∧
      (∀ hl2 ∈ PVP_LEVELS,
        cpAtLevel t base_atk base_def base_sta ia idf isa hl2 ≤ cap →
          hl2 ≤ hl) := by
  unfold findLevel at h
  by_cases hsc : calc_cp base_atk base_def base_sta ia idf isa m ≤ cap
  · rw [if_pos hsc] at h
    injection h with h
    subst h
    refine ⟨by rw [mem_PVP_LEVELS]; omega, ?_, ?_⟩
    · unfold cpAtLevel
      rw [← hm]
      exact hsc
    · intro hl2 h2 _
      exact (mem_PVP_LEVELS.mp h2).2
  · rw [if_neg hsc] at h
    have hpred := List.find?_some h
    have hmem : hl ∈ revLevels := List.mem_of_find?_eq_some h
    simp only [Bool.and_eq_true, Bool.not_eq_true', decide_eq_true_eq] at hpred
    refine ⟨mem_revLevels.mp hmem, hpred.2, ?_⟩
    intro hl2 h2 hcp
    apply find?_desc revLevels_desc h hl2 (mem_revLevels.mpr h2)
    simp only [Bool.and_eq_true, Bool.not_eq_true', decide_eq_true_eq]
    constructor
    · exact decide_eq_false (ne_of_gt (usable_cpm_sq_pos ht h2))
    · exact hcp

/-- C3: with positive base stats and a usable multiplier table, every
candidate returned by `compute_top10_ivs` records the CP computed at its
annotated level, that CP is at most the cap, and the annotated level is the
highest level of the half-level ladder 1.0..51.0 whose CP stays at or under
the cap. -/
theorem C3_top10_cap_and_level (t : Cpm) (base_atk base_def base_sta cap : ℤ)
    (ht : usableCpm t = true) (ha : 0 < base_atk) (hd : 0 < base_def)
    (hs : 0 < base_sta) :
    ∀ c ∈ resultList (compute_top10_ivs t base_atk base_def base_sta cap),
      c.cp = cpAtLevel t base_atk base_def base_sta c.atk_iv c.def_iv
          c.stm_iv c.level ∧
        c.cp ≤ cap ∧ c.level ∈ PVP_LEVELS ∧
        (∀ hl ∈ PVP_LEVELS,
          cpAtLevel t base_atk base_def base_sta c.atk_iv c.def_iv c.stm_iv
              hl ≤ cap → hl ≤ c.level) := by
  intro c hc
  have htne : ¬ (t = []) := by
    intro h0
    unfold usableCpm at ht
    rw [h0] at ht
    simp at ht
  unfold compute_top10_ivs at hc
  rw [if_neg (by omega)] at hc
  unfold get_cpm_sq at hc
  rw [if_neg htne] at hc
  simp only [resultList] at hc
  have hc2 : c ∈ (allTriples.filterMap (fun x =>
      (findLevel t base_atk base_def base_sta cap (get_cpm_sq0 t 102)
          x.1 x.2.1 x.2.2).map
        (mkCand t base_atk base_def base_sta x.1 x.2.1 x.2.2))).insertionSort
        candLe :=
    List.mem_of_mem_take hc
  have hc3 := (List.perm_insertionSort candLe _).subset hc2
  rw [List.mem_filterMap] at hc3
  obtain ⟨⟨ia, idf, isa⟩, _hmem, hF⟩ := hc3
  rw [Option.map_eq_some'] at hF
  obtain ⟨hl, hfind, hmk⟩ := hF
  have hspec := findLevel_spec ht rfl hfind
  subst hmk
  unfold mkCand
  refine ⟨rfl, ?_, ?_, ?_⟩
  · exact hspec.2.1
  · exact hspec.1
  · exact hspec.2.2

/-- C3 witness: instantiation at the spec scenario (base stats 200/150/180,
cap 1500) over a concrete usable table. -/
theorem C3_top10_cap_and_level_witness :
    (usableCpm cpmT1 = true) ∧
      ∀ c ∈ resultList (compute_top10_ivs cpmT1 200 150 180 1500),
        c.cp = cpAtLevel cpmT1 200 150 180 c.atk_iv c.def_iv c.stm_iv
            c.level ∧
          c.cp ≤ 1500 ∧ c.level ∈ PVP_LEVELS ∧
          (∀ hl ∈ PVP_LEVELS,
            cpAtLevel cpmT1 200 150 180 c.atk_iv c.def_iv c.stm_iv hl ≤ 1500 →
              hl ≤ c.level) :=
  ⟨by decide, C3_top10_cap_and_level cpmT1 200 150 180 1500 (by decide)
    (by norm_num) (by norm_num) (by norm_num)⟩

/-- C4: for positive base stats and any cap ≥ 10, the function returns at
most 10 candidates, sorted by the key (stat product descending; level
descending, `atk_iv` ascending, `def_iv` descending, `stm_iv` descending on
ties). -/
theorem C4_top10_sorted (t : Cpm) (base_atk base_def base_sta cp_cap : ℤ)
    (ha : 0 < base_atk) (hd : 0 < base_def) (hs : 0 < base_sta)
    (_hcap : 10 ≤ cp_cap) :
    (resultList (compute_top10_ivs t base_atk base_def base_sta cp_cap)).length
        ≤ 10 ∧
      List.Sorted candLe
        (resultList (compute_top10_ivs t base_atk base_def base_sta cp_cap)) := by
  unfold compute_top10_ivs
  rw [if_neg (by omega)]
  cases hg : get_cpm_sq t 102 with
  | error e =>
    constructor
    · simp [resultList]
    · simp [resultList, List.Sorted]
  | ok m =>
    simp only [resultList]
    constructor
    · exact List.length_take_le 10 _
    · exact List.Pairwise.sublist (List.take_sublist 10 _)
        (List.sorted_insertionSort candLe _)

/-- C4 witness: instantiation at base stats 200/150/180, cap 1500. -/
theorem C4_top10_sorted_witness :
    (resultList (compute_top10_ivs cpmT1 200 150 180 1500)).length ≤ 10 ∧
      List.Sorted candLe (resultList (compute_top10_ivs cpmT1 200 150 180 1500)) :=
  C4_top10_sorted cpmT1 200 150 180 1500 (by norm_num) (by norm_num)
    (by norm_num) (by norm_num)

/-! ### C2: the spread-matching loop -/

theorem pairLtZ_iff (p q : ℤ × ℤ) :
    pairLtZ p q = true ↔ toLex p < toLex q := by
  unfold pairLtZ
  rw [decide_eq_true_eq, Prod.Lex.lt_iff]

theorem pairLtZ_false_le {p q : ℤ × ℤ} (h : pairLtZ p q = false) :
    toLex q ≤ toLex p := by
  by_contra hc
  rw [not_le] at hc
  rw [(pairLtZ_iff p q).mpr hc] at h
  exact Bool.noConfusion h

theorem matchStep_none_of_matches (iva ivd ivs thr : ℤ) (ic : ℕ × Cand)
    (h : candMatches iva ivd ivs thr ic.2 = true) :
    matchStep iva ivd ivs thr none ic = some (newBestM iva ivd ivs ic) := by
  unfold matchStep
  rw [if_pos h]
  rfl

theorem matchStep_some_of_matches (iva ivd ivs thr : ℤ) (b0 : BestM)
    (ic : ℕ × Cand) (h : candMatches iva ivd ivs thr ic.2 = true) :
    matchStep iva ivd ivs thr (some b0) ic =
      if pairLtZ (candScore iva ivd ivs ic.2) b0.score = true then
        some (newBestM iva ivd ivs ic)
      else some b0 := by
  unfold matchStep
  rw [if_pos h]
  rfl

theorem matchStep_eq_of_not_matches (iva ivd ivs thr : ℤ) (acc : Option BestM)
    (ic : ℕ × Cand) (h : candMatches iva ivd ivs thr ic.2 = false) :
    matchStep iva ivd ivs thr acc ic = acc := by
  unfold matchStep
  rw [if_neg (by rw [h]; simp)]

/-- Invariant of the annotation loop: the accumulator is `none` exactly when
nothing processed matches, and otherwise holds a matching processed spread
with lexicographically minimal `(max delta, sum delta)` score. -/
theorem matchFold_inv (iva ivd ivs thr : ℤ) :
    ∀ (l : List (ℕ × Cand)) (acc : Option BestM) (processed : List Cand),
      (acc = none → ∀ c ∈ processed, candMatches iva ivd ivs thr c = false) →
      (∀ b, acc = some b → b.cand ∈ processed ∧
        candMatches iva ivd ivs thr b.cand = true ∧
        b.score = candScore iva ivd ivs b.cand ∧
        ∀ c ∈ processed, candMatches iva ivd ivs thr c = true →
          toLex b.score ≤ toLex (candScore iva ivd ivs c)) →
      ((l.foldl (matchStep iva ivd ivs thr) acc = none →
          ∀ c ∈ processed ++ l.map (·.2),
            candMatches iva ivd ivs thr c = false) ∧
        (∀ b, l.foldl (matchStep iva ivd ivs thr) acc = some b →
          b.cand ∈ processed ++ l.map (·.2) ∧
          candMatches iva ivd ivs thr b.cand = true ∧
          b.score = candScore iva ivd ivs b.cand ∧
          ∀ c ∈ processed ++ l.map (·.2),
            candMatches iva ivd ivs thr c = true →
              toLex b.score ≤ toLex (candScore iva ivd ivs c))) := by
  intro l
  induction l with
  | nil =>
    intro acc processed hnone hsome
    simp only [List.foldl_nil, List.map_nil, List.append_nil]
    exact ⟨hnone, hsome⟩
  | cons ic rest ih =>
    intro acc processed hnone hsome
    rw [List.foldl_cons]
    have hstep := ih (matchStep iva ivd ivs thr acc ic) (processed ++ [ic.2])
    have harr : processed ++ [ic.2] ++ rest.map (·.2) =
        processed ++ (ic :: rest).map (·.2) := by
      simp
    rw [harr] at hstep
    apply hstep
    · -- none-invariant after one step
      intro hn c hc
      by_cases hm : candMatches iva ivd ivs thr ic.2 = true
      · cases hacc : acc with
        | none =>
          rw [hacc, matchStep_none_of_matches iva ivd ivs thr ic hm] at hn
          exact Option.noConfusion hn
        | some b0 =>
          rw [hacc, matchStep_some_of_matches iva ivd ivs thr b0 ic hm] at hn
          by_cases hlt : pairLtZ (candScore iva ivd ivs ic.2) b0.score = true
          · rw [if_pos hlt] at hn
            exact Option.noConfusion hn
          · rw [if_neg hlt] at hn
            exact Option.noConfusion hn
      · simp only [Bool.not_eq_true] at hm
        rw [matchStep_eq_of_not_matches iva ivd ivs thr acc ic hm] at hn
        rcases List.mem_append.mp hc with h | h
        · exact hnone hn c h
        · rw [List.mem_singleton] at h
          subst h
          exact hm
    · -- some-invariant after one step
      intro b hb
      by_cases hm : candMatches iva ivd ivs thr ic.2 = true
      · cases hacc : acc with
        | none =>
          rw [hacc, matchStep_none_of_matches iva ivd ivs thr ic hm] at hb
          simp only [Option.some.injEq] at hb
          subst hb
          refine ⟨by simp [newBestM], by simpa [newBestM] using hm, rfl, ?_⟩
          intro c hc hcm
          rcases List.mem_append.mp hc with h | h
          · rw [hnone hacc c h] at hcm
            exact absurd hcm (by simp)
          · rw [List.mem_singleton] at h
            subst h
            exact le_refl _
        | some b0 =>
          rw [hacc, matchStep_some_of_matches iva ivd ivs thr b0 ic hm] at hb
          obtain ⟨hb0mem, hb0m, hb0sc, hb0min⟩ := hsome b0 hacc
          by_cases hlt : pairLtZ (candScore iva ivd ivs ic.2) b0.score = true
          · rw [if_pos hlt] at hb
            simp only [Option.some.injEq] at hb
            subst hb
            refine ⟨by simp [newBestM], by simpa [newBestM] using hm, rfl, ?_⟩
            intro c hc hcm
            rcases List.mem_append.mp hc with h | h
            · have h1 := hb0min c h hcm
              have h2 := (pairLtZ_iff _ _).mp hlt
              exact le_trans (le_of_lt h2) h1
            · rw [List.mem_singleton] at h
              subst h
              exact le_refl _
          · rw [if_neg hlt] at hb
            simp only [Bool.not_eq_true] at hlt
            simp only [Option.some.injEq] at hb
            subst hb
            refine ⟨List.mem_append.mpr (Or.inl hb0mem), hb0m, hb0sc, ?_⟩
            intro c hc hcm
            rcases List.mem_append.mp hc with h | h
            · exact hb0min c h hcm
            · rw [List.mem_singleton] at h
              subst h
              have hge := pairLtZ_false_le hlt
              rw [hb0sc] at hge ⊢
              exact hge
      · simp only [Bool.not_eq_true] at hm
        rw [matchStep_eq_of_not_matches iva ivd ivs thr acc ic hm] at hb
        obtain ⟨hbmem, hbm, hbsc, hbmin⟩ := hsome b hb
        refine ⟨List.mem_append.mpr (Or.inl hbmem), hbm, hbsc, ?_⟩
        intro c hc hcm
        rcases List.mem_append.mp hc with h | h
        · exact hbmin c h hcm
        · rw [List.mem_singleton] at h
          subst h
          rw [hm] at hcm
          exact absurd hcm (by simp)

/-- C2: a spread matches iff every per-axis delta (record IV minus spread
IV) has absolute value at most the threshold; among matching spreads the
loop returns one minimizing `(max abs delta, sum abs delta)`
lexicographically, and `none` when no spread matches.  In particular
`(14,14,14)` against the single top spread `(15,15,15)` matches at threshold
2 and not at threshold 0. -/
theorem C2_match_selection (iva ivd ivs thr : ℤ) (top : List Cand) :
    ((bestSpreadMatch iva ivd ivs thr top = none ↔
        ∀ c ∈ top, candMatches iva ivd ivs thr c = false) ∧
      (∀ b, bestSpreadMatch iva ivd ivs thr top = some b →
        b.cand ∈ top ∧ candMatches iva ivd ivs thr b.cand = true ∧
        b.score = candScore iva ivd ivs b.cand ∧
        ∀ c ∈ top, candMatches iva ivd ivs thr c = true →
          toLex b.score ≤ toLex (candScore iva ivd ivs c))) ∧
      (bestSpreadMatch 14 14 14 2 [cand15]).isSome = true ∧
      bestSpreadMatch 14 14 14 0 [cand15] = none := by
  have hsnd : (top.enumFrom 1).map (·.2) = top := List.enumFrom_map_snd 1 top
  have hinv := matchFold_inv iva ivd ivs thr (top.enumFrom 1) none []
    (fun _ c hc => absurd hc (List.not_mem_nil c))
    (fun b hb => absurd hb (by simp))
  rw [hsnd] at hinv
  simp only [List.nil_append] at hinv
  refine ⟨⟨⟨hinv.1, ?_⟩, hinv.2⟩, by decide, by decide⟩
  · -- converse of the none case: if nothing matches, the fold stays none
    intro hall
    unfold bestSpreadMatch
    have : ∀ (l : List (ℕ × Cand)),
        (∀ ic ∈ l, candMatches iva ivd ivs thr ic.2 = false) →
        l.foldl (matchStep iva ivd ivs thr) none = none := by
      intro l
      induction l with
      | nil => intro _; rfl
      | cons ic rest ihl =>
        intro hl
        rw [List.foldl_cons]
        rw [matchStep_eq_of_not_matches iva ivd ivs thr none ic
          (hl ic (List.mem_cons_self _ _))]
        exact ihl (fun x hx => hl x (List.mem_cons_of_mem _ hx))
    apply this
    intro ic hic
    apply hall
    rw [← hsnd]
    exact List.mem_map_of_mem (·.2) hic

/-- C2 witness: the threshold-0 side of the concrete scenario, via the
theorem. -/
theorem C2_match_selection_witness :
    bestSpreadMatch 14 14 14 0 [cand15] = none :=
  (C2_match_selection 14 14 14 0 [cand15]).2.2

/-! ### C5: atomicity of `pvp_match_and_annotate` -/

/-- Classification of the annotator's results: a failed call returns the
record untouched, a successful call returns a record with the whole PVP
block populated, and the only other outcome is the propagated
empty-multiplier-table exception. -/
theorem pvp_match_and_annotate_cases (env : PvpEnv) (p : Rec)
    (league category : Str) (threshold : ℤ) (top_n : ℕ) :
    pvp_match_and_annotate env p league category threshold top_n =
        .ok (false, p) ∨
      (∃ p', pvp_match_and_annotate env p league category threshold top_n =
          .ok (true, p') ∧ pvpAllPresent p' = true) ∨
      pvp_match_and_annotate env p league category threshold top_n =
        .error () := by
  unfold pvp_match_and_annotate
  split
  all_goals try (left; rfl)
  split
  all_goals try (left; rfl)
  split
  all_goals try (left; rfl)
  split
  all_goals try (left; rfl)
  dsimp only
  split
  all_goals try (right; right; rfl)
  split
  all_goals try (left; rfl)
  split
  all_goals try (left; rfl)
  right; left
  exact ⟨_, rfl, rfl⟩

/-- C5: the annotator is atomic per record: a `false` return leaves the
record unchanged, a `true` return populates the entire PVP block, and the
all-absent-or-all-present invariant is preserved by every (non-raising)
call. -/
theorem C5_annotate_atomic (env : PvpEnv) (p : Rec) (league category : Str)
    (threshold : ℤ) (top_n : ℕ) (hp : pvpInvariant p = true) :
    (∀ p', pvp_match_and_annotate env p league category threshold top_n =
        .ok (false, p') → p' = p) ∧
      (∀ p', pvp_match_and_annotate env p league category threshold top_n =
        .ok (true, p') → pvpAllPresent p' = true) ∧
      (∀ r p', pvp_match_and_annotate env p league category threshold top_n =
        .ok (r, p') → pvpInvariant p' = true) := by
  rcases pvp_match_and_annotate_cases env p league category threshold top_n
    with hc | ⟨pa, hc, hall⟩ | hc
  · refine ⟨?_, ?_, ?_⟩
    · intro p' h
      rw [hc] at h
      injection h with h2
      injection h2 with _ h3
      exact h3.symm
    · intro p' h
      rw [hc] at h
      injection h with h2
      injection h2 with h3 _
      exact absurd h3.symm Bool.noConfusion
    · intro r p' h
      rw [hc] at h
      injection h with h2
      injection h2 with _ h3
      rw [← h3]
      exact hp
  · refine ⟨?_, ?_, ?_⟩
    · intro p' h
      rw [hc] at h
      injection h with h2
      injection h2 with h3 _
      exact absurd h3 Bool.noConfusion
    · intro p' h
      rw [hc] at h
      injection h with h2
      injection h2 with _ h3
      rw [← h3]
      exact hall
    · intro r p' h
      rw [hc] at h
      injection h with h2
      injection h2 with _ h3
      unfold pvpInvariant
      rw [← h3, hall]
      simp
  · refine ⟨?_, ?_, ?_⟩
    · intro p' h
      rw [hc] at h
      exact Except.noConfusion h
    · intro p' h
      rw [hc] at h
      exact Except.noConfusion h
    · intro r p' h
      rw [hc] at h
      exact Except.noConfusion h

/-- C5 witness: a concrete early-exit call (unknown league) returns `false`
with the record unchanged, through the theorem. -/
theorem C5_annotate_atomic_witness :
    (pvpInvariant recAlpha = true) ∧
      (pvp_match_and_annotate env0 recAlpha (sc "XX") (sc "overall") 2 10 =
        .ok (false, recAlpha)) ∧
      recAlpha = recAlpha :=
  ⟨by decide, by rfl,
    (C5_annotate_atomic env0 recAlpha (sc "XX") (sc "overall") 2 10
      (by decide)).1 recAlpha (by rfl)⟩

/-! ### C6: ranking-entry selection -/

theorem bucketInv_extend_false {b : EntryD → Bool} {o : Option (EntryD × ℕ)}
    {processed : List (ℕ × EntryD)} (inv : bucketInv b o processed)
    (ei : ℕ × EntryD) (hbe : b ei.2 = false) :
    bucketInv b o (processed ++ [ei]) := by
  obtain ⟨h1, h2⟩ := inv
  constructor
  · intro ho x hx
    rcases List.mem_append.mp hx with h | h
    · exact h1 ho x h
    · rw [List.mem_singleton] at h
      subst h
      exact hbe
  · intro m hm
    obtain ⟨hmem, hb, hmax⟩ := h2 m hm
    refine ⟨List.mem_append.mpr (Or.inl hmem), hb, ?_⟩
    intro x hx hbx
    rcases List.mem_append.mp hx with h | h
    · exact hmax x h hbx
    · rw [List.mem_singleton] at h
      subst h
      rw [hbx] at hbe
      exact absurd hbe (by simp)

theorem keepBetter_inv {b : EntryD → Bool} {o : Option (EntryD × ℕ)}
    {processed : List (ℕ × EntryD)} (inv : bucketInv b o processed)
    (e : EntryD) (idx : ℕ) (hbe : b e = true) :
    bucketInv b (keepBetter o e idx) (processed ++ [(idx, e)]) := by
  obtain ⟨h1, h2⟩ := inv
  unfold keepBetter
  cases ho : o with
  | none =>
    dsimp only
    constructor
    · intro hn
      exact absurd hn (by simp)
    · intro m hm
      simp only [Option.some.injEq] at hm
      subst hm
      refine ⟨by simp, hbe, ?_⟩
      intro x hx hbx
      rcases List.mem_append.mp hx with h | h
      · rw [h1 ho x h] at hbx
        exact absurd hbx (by simp)
      · rw [List.mem_singleton] at h
        subst h
        exact le_refl _
  | some m0 =>
    dsimp only
    obtain ⟨hmem0, hb0, hmax0⟩ := h2 m0 ho
    by_cases hgt : ratingOf e > ratingOf m0.1
    · rw [if_pos hgt]
      constructor
      · intro hn
        exact absurd hn (by simp)
      · intro m hm
        simp only [Option.some.injEq] at hm
        subst hm
        refine ⟨by simp, hbe, ?_⟩
        intro x hx hbx
        rcases List.mem_append.mp hx with h | h
        · exact le_trans (hmax0 x h hbx) (le_of_lt hgt)
        · rw [List.mem_singleton] at h
          subst h
          exact le_refl _
    · rw [if_neg hgt]
      constructor
      · intro hn
        exact absurd hn (by simp)
      · intro m hm
        simp only [Option.some.injEq] at hm
        subst hm
        refine ⟨List.mem_append.mpr (Or.inl hmem0), hb0, ?_⟩
        intro x hx hbx
        rcases List.mem_append.mp hx with h | h
        · exact hmax0 x h hbx
        · rw [List.mem_singleton] at h
          subst h
          exact le_of_not_lt hgt

/-- One scan step maintains the three bucket invariants. -/
theorem scanStep_inv (pfx : Str) (st : ScanSt)
    (processed : List (ℕ × EntryD)) (ei : ℕ × EntryD)
    (he : bucketInv (inExactBucket pfx) st.exact processed)
    (hb : bucketInv (inBoundaryBucket pfx) st.boundary processed)
    (hg : bucketInv (inGeneralBucket pfx) st.general processed) :
    bucketInv (inExactBucket pfx) (scanStep pfx st ei).exact
        (processed ++ [ei]) ∧
      bucketInv (inBoundaryBucket pfx) (scanStep pfx st ei).boundary
        (processed ++ [ei]) ∧
      bucketInv (inGeneralBucket pfx) (scanStep pfx st ei).general
        (processed ++ [ei]) := by
  unfold scanStep
  dsimp only
  cases hsid : ei.2.speciesId with
  | none =>
    dsimp only
    refine ⟨bucketInv_extend_false he ei ?_, bucketInv_extend_false hb ei ?_,
      bucketInv_extend_false hg ei ?_⟩ <;>
      (first
        | (unfold inExactBucket; rw [hsid])
        | (unfold inBoundaryBucket; rw [hsid])
        | (unfold inGeneralBucket; rw [hsid]))
  | bool b2 =>
    dsimp only
    refine ⟨bucketInv_extend_false he ei ?_, bucketInv_extend_false hb ei ?_,
      bucketInv_extend_false hg ei ?_⟩ <;>
      (first
        | (unfold inExactBucket; rw [hsid])
        | (unfold inBoundaryBucket; rw [hsid])
        | (unfold inGeneralBucket; rw [hsid]))
  | int n2 =>
    dsimp only
    refine ⟨bucketInv_extend_false he ei ?_, bucketInv_extend_false hb ei ?_,
      bucketInv_extend_false hg ei ?_⟩ <;>
      (first
        | (unfold inExactBucket; rw [hsid])
        | (unfold inBoundaryBucket; rw [hsid])
        | (unfold inGeneralBucket; rw [hsid]))
  | str sid =>
    dsimp only
    have hexact : ∀ v : Bool, (!(sid = []) && decide (sid = pfx)) = v →
        inExactBucket pfx ei.2 = v := by
      intro v hv
      unfold inExactBucket
      rw [hsid]
      exact hv
    by_cases h0 : sid = []
    · rw [if_pos h0]
      refine ⟨bucketInv_extend_false he ei ?_, bucketInv_extend_false hb ei ?_,
        bucketInv_extend_false hg ei ?_⟩
      · unfold inExactBucket; rw [hsid]; simp [h0]
      · unfold inBoundaryBucket; rw [hsid]; simp [h0]
      · unfold inGeneralBucket; rw [hsid]; simp [h0]
    · rw [if_neg h0]
      by_cases hx : sid = pfx
      · rw [if_pos hx]
        refine ⟨keepBetter_inv he ei.2 ei.1 ?_,
          bucketInv_extend_false hb ei ?_, bucketInv_extend_false hg ei ?_⟩
        · unfold inExactBucket
          rw [hsid]
          simp [hx, show ¬ pfx = [] from hx ▸ h0]
        · unfold inBoundaryBucket; rw [hsid]; simp [hx]
        · unfold inGeneralBucket; rw [hsid]; simp [hx]
      · rw [if_neg hx]
        cases h2 : (pfx ++ ['_']).isPrefixOf sid with
        | true =>
          rw [if_pos rfl]
          refine ⟨bucketInv_extend_false he ei ?_,
            keepBetter_inv hb ei.2 ei.1 ?_, bucketInv_extend_false hg ei ?_⟩
          · unfold inExactBucket; rw [hsid]; simp [hx]
          · unfold inBoundaryBucket; rw [hsid]; simp [h0, hx, h2]
          · unfold inGeneralBucket; rw [hsid]; simp [h2]
        | false =>
          rw [if_neg (by simp)]
          cases h3 : pfx.isPrefixOf sid with
          | true =>
            rw [if_pos rfl]
            refine ⟨bucketInv_extend_false he ei ?_,
              bucketInv_extend_false hb ei ?_, keepBetter_inv hg ei.2 ei.1 ?_⟩
            · unfold inExactBucket; rw [hsid]; simp [hx]
            · unfold inBoundaryBucket; rw [hsid]; simp [h2]
            · unfold inGeneralBucket; rw [hsid]; simp [h0, hx, h2, h3]
          | false =>
            rw [if_neg (by simp)]
            refine ⟨bucketInv_extend_false he ei ?_,
              bucketInv_extend_false hb ei ?_,
              bucketInv_extend_false hg ei ?_⟩
            · unfold inExactBucket; rw [hsid]; simp [hx]
            · unfold inBoundaryBucket; rw [hsid]; simp [h2]
            · unfold inGeneralBucket; rw [hsid]; simp [h3]

/-- The scan maintains the three bucket invariants. -/
theorem scanFold_inv (pfx : Str) :
    ∀ (l : List (ℕ × EntryD)) (st : ScanSt) (processed : List (ℕ × EntryD)),
      bucketInv (inExactBucket pfx) st.exact processed →
      bucketInv (inBoundaryBucket pfx) st.boundary processed →
      bucketInv (inGeneralBucket pfx) st.general processed →
      bucketInv (inExactBucket pfx) (l.foldl (scanStep pfx) st).exact
          (processed ++ l) ∧
        bucketInv (inBoundaryBucket pfx) (l.foldl (scanStep pfx) st).boundary
          (processed ++ l) ∧
        bucketInv (inGeneralBucket pfx) (l.foldl (scanStep pfx) st).general
          (processed ++ l) := by
  intro l
  induction l with
  | nil =>
    intro st processed he hb hg
    simp only [List.foldl_nil, List.append_nil]
    exact ⟨he, hb, hg⟩
  | cons ei rest ih =>
    intro st processed he hb hg
    rw [List.foldl_cons]
    have harr : processed ++ [ei] ++ rest = processed ++ ei :: rest := by simp
    have hone := scanStep_inv pfx st processed ei he hb hg
    have hstep := ih (scanStep pfx st ei) (processed ++ [ei]) hone.1 hone.2.1
      hone.2.2
    rw [harr] at hstep
    exact hstep

theorem exactBucket_speciesId {pfx : Str} {e : EntryD}
    (h : inExactBucket pfx e = true) : e.speciesId = PyVal.str pfx := by
  unfold inExactBucket at h
  cases hsid : e.speciesId with
  | str s =>
    rw [hsid] at h
    simp only [Bool.and_eq_true, decide_eq_true_eq] at h
    rw [h.2]
  | none => rw [hsid] at h; exact Bool.noConfusion h
  | bool b => rw [hsid] at h; exact Bool.noConfusion h
  | int n => rw [hsid] at h; exact Bool.noConfusion h

theorem bucketInv_none_iff {b : EntryD → Bool} {o : Option (EntryD × ℕ)}
    {processed : List (ℕ × EntryD)} (inv : bucketInv b o processed) :
    o = none ↔ ∀ ei ∈ processed, b ei.2 = false := by
  constructor
  · exact inv.1
  · intro hall
    cases ho : o with
    | none => rfl
    | some m =>
      obtain ⟨hmem, hbm, _⟩ := inv.2 m ho
      have := hall (m.2, m.1) hmem
      rw [hbm] at this
      exact absurd this (by simp)

/-- C6: the selection of `best_ranking_entry_for_prefix`: the result is
empty iff no entry falls in any bucket; otherwise the entry comes from the
first nonempty bucket in the precedence exact > boundary > general-prefix
and has the highest rating within it; in particular, whenever an exact
identifier match exists the returned entry is the exact match, never a
longer identifier merely extending the prefix. -/
theorem C6_best_entry_precedence (env : PvpEnv) (category league pfx : Str) :
    (best_ranking_entry_for_pfx env category league pfx = none ↔
      ∀ ei ∈ (env.rankings (normCategory env category) league).enumFrom 1,
        inExactBucket pfx ei.2 = false ∧ inBoundaryBucket pfx ei.2 = false ∧
          inGeneralBucket pfx ei.2 = false) ∧
    (∀ be, best_ranking_entry_for_pfx env category league pfx = some be →
      (be.rank, be.e) ∈
          (env.rankings (normCategory env category) league).enumFrom 1 ∧
      ((∃ ei ∈ (env.rankings (normCategory env category) league).enumFrom 1,
          inExactBucket pfx ei.2 = true) →
        inExactBucket pfx be.e = true ∧
          ∀ ei ∈ (env.rankings (normCategory env category) league).enumFrom 1,
            inExactBucket pfx ei.2 = true → ratingOf ei.2 ≤ ratingOf be.e) ∧
      ((∀ ei ∈ (env.rankings (normCategory env category) league).enumFrom 1,
          inExactBucket pfx ei.2 = false) →
        (∃ ei ∈ (env.rankings (normCategory env category) league).enumFrom 1,
          inBoundaryBucket pfx ei.2 = true) →
        inBoundaryBucket pfx be.e = true ∧
          ∀ ei ∈ (env.rankings (normCategory env category) league).enumFrom 1,
            inBoundaryBucket pfx ei.2 = true →
              ratingOf ei.2 ≤ ratingOf be.e) ∧
      ((∀ ei ∈ (env.rankings (normCategory env category) league).enumFrom 1,
          inExactBucket pfx ei.2 = false) →
        (∀ ei ∈ (env.rankings (normCategory env category) league).enumFrom 1,
          inBoundaryBucket pfx ei.2 = false) →
        inGeneralBucket pfx be.e = true ∧
          ∀ ei ∈ (env.rankings (normCategory env category) league).enumFrom 1,
            inGeneralBucket pfx ei.2 = true →
              ratingOf ei.2 ≤ ratingOf be.e)) ∧
    ((∃ ei ∈ (env.rankings (normCategory env category) league).enumFrom 1,
        inExactBucket pfx ei.2 = true) →
      ∃ be, best_ranking_entry_for_pfx env category league pfx = some be ∧
        be.e.speciesId = PyVal.str pfx) := by
  have hinv := scanFold_inv pfx
    ((env.rankings (normCategory env category) league).enumFrom 1)
    ⟨none, none, none⟩ []
    ⟨fun _ _ h => absurd h (List.not_mem_nil _), fun m hm => absurd hm (by simp)⟩
    ⟨fun _ _ h => absurd h (List.not_mem_nil _), fun m hm => absurd hm (by simp)⟩
    ⟨fun _ _ h => absurd h (List.not_mem_nil _), fun m hm => absurd hm (by simp)⟩
  rw [List.nil_append] at hinv
  obtain ⟨he, hb, hg⟩ := hinv
  have hres : best_ranking_entry_for_pfx env category league pfx =
      (match (((env.rankings (normCategory env category) league).enumFrom
          1).foldl (scanStep pfx) ⟨none, none, none⟩).exact <|>
        (((env.rankings (normCategory env category) league).enumFrom
          1).foldl (scanStep pfx) ⟨none, none, none⟩).boundary <|>
        (((env.rankings (normCategory env category) league).enumFrom
          1).foldl (scanStep pfx) ⟨none, none, none⟩).general with
      | none => none
      | some m => some ⟨m.1, m.2⟩) := by
    unfold best_ranking_entry_for_pfx normCategory
    rfl
  set st := (((env.rankings (normCategory env category) league).enumFrom
    1).foldl (scanStep pfx) ⟨none, none, none⟩) with hst
  cases hx : st.exact with
  | some m =>
    rw [hx] at hres
    simp only [Option.some_orElse] at hres
    obtain ⟨hmem, hbm, hmax⟩ := he.2 m hx
    refine ⟨?_, ?_, ?_⟩
    · rw [hres]
      constructor
      · intro h; exact Option.noConfusion h
      · intro hall
        have := (hall (m.2, m.1) hmem).1
        rw [hbm] at this
        exact absurd this (by simp)
    · intro be hbe
      rw [hres] at hbe
      injection hbe with hbe
      subst hbe
      refine ⟨hmem, fun _ => ⟨hbm, hmax⟩, ?_, ?_⟩
      · intro hallE _
        have := hallE (m.2, m.1) hmem
        rw [hbm] at this
        exact absurd this (by simp)
      · intro hallE _
        have := hallE (m.2, m.1) hmem
        rw [hbm] at this
        exact absurd this (by simp)
    · intro _
      refine ⟨⟨m.1, m.2⟩, hres, exactBucket_speciesId hbm⟩
  | none =>
    have hallE := he.1 hx
    rw [hx] at hres
    simp only [Option.none_orElse] at hres
    cases hbx : st.boundary with
    | some m =>
      rw [hbx] at hres
      simp only [Option.some_orElse] at hres
      obtain ⟨hmem, hbm, hmax⟩ := hb.2 m hbx
      refine ⟨?_, ?_, ?_⟩
      · rw [hres]
        constructor
        · intro h; exact Option.noConfusion h
        · intro hall
          have := (hall (m.2, m.1) hmem).2.1
          rw [hbm] at this
          exact absurd this (by simp)
      · intro be hbe
        rw [hres] at hbe
        injection hbe with hbe
        subst hbe
        refine ⟨hmem, ?_, fun _ _ => ⟨hbm, hmax⟩, ?_⟩
        · rintro ⟨ei, hei, hexei⟩
          have := hallE ei hei
          rw [hexei] at this
          exact absurd this (by simp)
        · intro _ hallB
          have := hallB (m.2, m.1) hmem
          rw [hbm] at this
          exact absurd this (by simp)
      · rintro ⟨ei, hei, hexei⟩
        have := hallE ei hei
        rw [hexei] at this
        exact absurd this (by simp)
    | none =>
      have hallB := hb.1 hbx
      rw [hbx] at hres
      simp only [Option.none_orElse] at hres
      cases hgx : st.general with
      | some m =>
        rw [hgx] at hres
        obtain ⟨hmem, hbm, hmax⟩ := hg.2 m hgx
        refine ⟨?_, ?_, ?_⟩
        · rw [hres]
          constructor
          · intro h; exact Option.noConfusion h
          · intro hall
            have := (hall (m.2, m.1) hmem).2.2
            rw [hbm] at this
            exact absurd this (by simp)
        · intro be hbe
          rw [hres] at hbe
          injection hbe with hbe
          subst hbe
          refine ⟨hmem, ?_, ?_, fun _ _ => ⟨hbm, hmax⟩⟩
          · rintro ⟨ei, hei, hexei⟩
            have := hallE ei hei
            rw [hexei] at this
            exact absurd this (by simp)
          · intro _
            rintro ⟨ei, hei, hbei⟩
            have := hallB ei hei
            rw [hbei] at this
            exact absurd this (by simp)
        · rintro ⟨ei, hei, hexei⟩
          have := hallE ei hei
          rw [hexei] at this
          exact absurd this (by simp)
      | none =>
        have hallG := hg.1 hgx
        rw [hgx] at hres
        refine ⟨?_, ?_, ?_⟩
        · rw [hres]
          constructor
          · intro _ ei hei
            exact ⟨hallE ei hei, hallB ei hei, hallG ei hei⟩
          · intro _; rfl
        · intro be hbe
          rw [hres] at hbe
          exact Option.noConfusion hbe
        · rintro ⟨ei, hei, hexei⟩
          have := hallE ei hei
          rw [hexei] at this
          exact absurd this (by simp)

/-- C6 witness: with entries `pika_alolan` (rating 900) and `pika`
(rating 700) present, the prefix `pika` returns the exact match. -/
theorem C6_best_entry_precedence_witness :
    (∃ ei ∈ ((envPika.rankings
        (normCategory envPika (sc "overall")) (sc "GL")).enumFrom 1),
      inExactBucket (sc "pika") ei.2 = true) ∧
      ∃ be, best_ranking_entry_for_pfx envPika (sc "overall") (sc "GL")
          (sc "pika") = some be ∧
        be.e.speciesId = PyVal.str (sc "pika") :=
  ⟨by decide,
    (C6_best_entry_precedence envPika (sc "overall") (sc "GL")
      (sc "pika")).2.2 (by decide)⟩

/-! ### C7: the team score formula -/

theorem dictUpdMin_keys (k : Str) (v : ℤ) :
    ∀ th : List (Str × ℤ),
      (dictUpdMin th k v).map (·.1) =
        if k ∈ th.map (·.1) then th.map (·.1) else th.map (·.1) ++ [k] := by
  intro th
  induction th with
  | nil => simp [dictUpdMin]
  | cons kv0 rest ih =>
    unfold dictUpdMin
    by_cases hk : kv0.1 = k
    · rw [if_pos hk]
      simp [hk]
    · rw [if_neg hk]
      simp only [List.map_cons, ih]
      by_cases hmem : k ∈ rest.map (·.1)
      · rw [if_pos hmem, if_pos (by simp [hmem])]
      · rw [if_neg hmem, if_neg (by
          simp only [List.mem_cons, not_or]
          exact ⟨fun hc => hk hc.symm, hmem⟩)]
        simp

theorem dictUpdMin_keys_nodup {th : List (Str × ℤ)} {k : Str} {v : ℤ}
    (h : (th.map (·.1)).Nodup) : ((dictUpdMin th k v).map (·.1)).Nodup := by
  rw [dictUpdMin_keys]
  by_cases hmem : k ∈ th.map (·.1)
  · rw [if_pos hmem]; exact h
  · rw [if_neg hmem]
    rw [List.nodup_append]
    exact ⟨h, List.nodup_singleton _, by simpa using hmem⟩

theorem dictUpdMin_keys_toFinset (th : List (Str × ℤ)) (k : Str) (v : ℤ) :
    ((dictUpdMin th k v).map (·.1)).toFinset =
      insert k ((th.map (·.1)).toFinset) := by
  rw [dictUpdMin_keys]
  by_cases hmem : k ∈ th.map (·.1)
  · rw [if_pos hmem]
    rw [Finset.insert_eq_self.mpr (List.mem_toFinset.mpr hmem)]
  · rw [if_neg hmem]
    rw [List.toFinset_append]
    simp [Finset.union_comm, Finset.insert_eq]

theorem threatFold_spec (kvs : List (Str × ℤ)) :
    ∀ th : List (Str × ℤ),
      (((kvs.foldl (fun th2 kv => dictUpdMin th2 kv.1 kv.2) th).map
          (·.1)).toFinset =
        (th.map (·.1)).toFinset ∪ (kvs.map (·.1)).toFinset) ∧
      ((th.map (·.1)).Nodup →
        (((kvs.foldl (fun th2 kv => dictUpdMin th2 kv.1 kv.2) th).map
          (·.1)).Nodup)) := by
  induction kvs with
  | nil => intro th; simp
  | cons kv rest ih =>
    intro th
    rw [List.foldl_cons]
    constructor
    · rw [(ih (dictUpdMin th kv.1 kv.2)).1, dictUpdMin_keys_toFinset]
      simp only [List.map_cons, List.toFinset_cons]
      rw [Finset.insert_union, Finset.union_insert]
    · intro hnd
      exact (ih (dictUpdMin th kv.1 kv.2)).2 (dictUpdMin_keys_nodup hnd)

theorem teamThreats_spec (team : List Prepared) :
    ((teamThreats team).map (·.1)).toFinset = specThreatIds team ∧
      ((teamThreats team).map (·.1)).Nodup := by
  unfold teamThreats specThreatIds
  have hgen : ∀ (l : List Prepared) (acc : List (Str × ℤ)),
      (((l.foldl (fun th m => m.counters.foldl
          (fun th2 kv => dictUpdMin th2 kv.1 kv.2) th) acc).map
            (·.1)).toFinset =
        (acc.map (·.1)).toFinset ∪
          (l.flatMap (fun m => m.counters.map (·.1))).toFinset) ∧
      ((acc.map (·.1)).Nodup →
        ((l.foldl (fun th m => m.counters.foldl
          (fun th2 kv => dictUpdMin th2 kv.1 kv.2) th) acc).map
            (·.1)).Nodup) := by
    intro l
    induction l with
    | nil => intro acc; simp
    | cons m rest ihl =>
      intro acc
      rw [List.foldl_cons]
      constructor
      · rw [(ihl _).1, (threatFold_spec m.counters acc).1]
        rw [List.flatMap_cons, List.toFinset_append, Finset.union_assoc]
      · intro hnd
        exact (ihl _).2 ((threatFold_spec m.counters acc).2 hnd)
  have h := hgen team []
  constructor
  · rw [h.1]
    simp
  · exact h.2 (by simp)

theorem map_fst_filter (pk : Str → Bool) :
    ∀ d : List (Str × ℤ),
      (d.filter (fun kv => pk kv.1)).map (·.1) = (d.map (·.1)).filter pk := by
  intro d
  induction d with
  | nil => rfl
  | cons kv rest ih =>
    simp only [List.map_cons, List.filter_cons]
    by_cases hk : pk kv.1 = true
    · simp [hk, ih]
    · simp [hk, ih]

theorem threatCovered_iff (team : List Prepared) (k : Str) :
    threatCovered team k = true ↔
      ∃ m ∈ team, COVERAGE_THRESHOLD ≤ dictGetZ m.matchups k 0 := by
  unfold threatCovered
  rw [List.any_eq_true]
  constructor
  · rintro ⟨m, hm, hd⟩
    exact ⟨m, hm, by simpa using hd⟩
  · rintro ⟨m, hm, hd⟩
    exact ⟨m, hm, by simpa using hd⟩

/-- C7: the score computed by `_team_score` is exactly
`metaScore + (totalThreats − uncoveredCount)·10 − uncoveredCount·120`, with
the threat identifiers the union of the members' counters and a threat
uncovered exactly when no member has a matchup rating ≥ 550 against it. -/
theorem C7_team_score_formula (name_map : List (Str × Str))
    (team : List Prepared) :
    (team_score name_map team).1 = specTeamScore team := by
  obtain ⟨hset, hnd⟩ := teamThreats_spec team
  have hTlen : ((teamThreats team).length : ℤ) =
      ((specThreatIds team).card : ℤ) := by
    rw [← hset, List.toFinset_card_of_nodup hnd]
    simp
  have hUkeys : (teamUncovered team).map (·.1) =
      ((teamThreats team).map (·.1)).filter
        (fun k => !threatCovered team k) := by
    unfold teamUncovered
    exact map_fst_filter (fun k => !threatCovered team k) (teamThreats team)
  have hUnd : ((teamUncovered team).map (·.1)).Nodup := by
    rw [hUkeys]
    exact List.Nodup.filter _ hnd
  have hUset : ((teamUncovered team).map (·.1)).toFinset =
      (specThreatIds team).filter (specUncovered team) := by
    rw [hUkeys, List.toFinset_filter, hset]
    apply Finset.filter_congr
    intro k _
    unfold specUncovered
    rw [← threatCovered_iff team k]
    simp
  have hUlen : ((teamUncovered team).length : ℤ) =
      (((specThreatIds team).filter (specUncovered team)).card : ℤ) := by
    rw [← hUset, List.toFinset_card_of_nodup hUnd]
    simp
  unfold team_score specTeamScore specMetaScore
  dsimp only
  rw [hTlen, hUlen]
